import Mathlib

/-!
# bitmap_allocator: a fixed-block bitmap memory resource

A shallow embedding of `src/bitmap_allocator.hpp`.

* `std::size_t` is the 64-bit unsigned word: a `Nat` below `size_mod = 2 ^ 64`, every
  arithmetic operation of the source reduced modulo `size_mod`.
* `sizeof(std::size_t)` is 8, so `block_size_in_bytes_ = 8`.
* `std::vector<bool>` is a `List Bool`; an iterator into it is the index it points at,
  `begin()` being `0` and `end()` being the length.
* a pointer is the address it holds, a `Nat`; the result of `allocate` is an `Option`,
  `none` being `nullptr`.
* `std::search` and `std::fill_n` are the loops of the C++ standard library.
* `deallocate` returns an `Option`, `none` where the source writes outside the table.
* a `session` is a resource together with the caller's list of live allocations.
-/

namespace BitmapAllocator

/-! ## Machine words -/

/-- The number of values of `std::size_t`. -/
def size_mod : Nat := 18446744073709551616

/-- Addition of two `std::size_t`. -/
def size_add (a b : Nat) : Nat := (a + b) % size_mod

/-- Subtraction of two `std::size_t`: the difference, with `2 ^ 64` added on a borrow. -/
def size_sub (a b : Nat) : Nat := if b ≤ a then a - b else a + size_mod - b

/-- Multiplication of two `std::size_t`. -/
def size_mul (a b : Nat) : Nat := (a * b) % size_mod

/-- The difference of two pointers, converted to `std::size_t`: the difference of the
addresses, with `2 ^ 64` added when it is negative. -/
def ptr_diff (p q : Nat) : Nat := if q ≤ p then p - q else p + size_mod - q

/-- The value of a `std::size_t` converted to `std::ptrdiff_t` (two's complement). -/
def to_ptrdiff (a : Nat) : Int :=
  if a % size_mod < size_mod / 2 then ((a % size_mod : Nat) : Int)
  else ((a % size_mod : Nat) : Int) - (size_mod : Int)

/-- The value of a `std::ptrdiff_t` converted to `std::size_t`. -/
def of_ptrdiff (n : Int) : Nat := (n % (size_mod : Int)).toNat

/-! ## constant_iterator (lines 5-102) -/

/-- The class `constant_iterator<T>`: its two data members. -/
structure constant_iterator (T : Type) where
  value_ : T
  position_ : Nat
deriving DecidableEq, Repr

namespace constant_iterator

variable {T : Type}

/-- The constructor `constant_iterator(const T& value, size_t position)`. -/
def mk2 (value : T) (position : Nat) : constant_iterator T := ⟨value, position⟩

/-- The constructor `constant_iterator(const T& value)`, delegating with position 0. -/
def mk1 (value : T) : constant_iterator T := mk2 value 0

/-- The dereference `operator*`. -/
def deref (self : constant_iterator T) : T := self.value_

/-- The subscript `operator[]`: the offset is ignored. -/
def subscript (self : constant_iterator T) (_n : Int) : T := self.value_

/-- The comparison `operator!=`. -/
def ne (self rhs : constant_iterator T) : Bool := self.position_ != rhs.position_

/-- The pre-increment `operator++`. -/
def inc (self : constant_iterator T) : constant_iterator T :=
  { self with position_ := size_add self.position_ 1 }

/-- The post-increment `operator++(int)`: the old value and the incremented iterator. -/
def post_inc (self : constant_iterator T) : constant_iterator T × constant_iterator T :=
  (self, { self with position_ := size_add self.position_ 1 })

/-- The pre-decrement `operator--`. -/
def dec (self : constant_iterator T) : constant_iterator T :=
  { self with position_ := size_sub self.position_ 1 }

/-- The post-decrement `operator--(int)`: the old value and the decremented iterator. -/
def post_dec (self : constant_iterator T) : constant_iterator T × constant_iterator T :=
  (self, { self with position_ := size_sub self.position_ 1 })

/-- The compound assignment `operator+=`: `n` is converted to `size_t` and added. -/
def plus_eq (self : constant_iterator T) (n : Int) : constant_iterator T :=
  { self with position_ := size_add self.position_ (of_ptrdiff n) }

/-- The sum `operator+`: a copy advanced with `operator+=`. -/
def plus (self : constant_iterator T) (n : Int) : constant_iterator T :=
  let result := self
  result.plus_eq n

/-- The difference `operator-`: `position_ - rhs.position_` as a `difference_type`. -/
def diff (self rhs : constant_iterator T) : Int :=
  to_ptrdiff (size_sub self.position_ rhs.position_)

end constant_iterator

/-! ## std::search and std::fill_n -/

/-- How the inner loop of `std::search` ends. -/
inductive search_exit where
  | matched
  | exhausted
  | mismatch
deriving DecidableEq, Repr

/-- The inner loop of `std::search`, `for (s_it = s_first; ; ++it, ++s_it)`, over the part
`hay` of the searched range that starts at `it`:
`if (s_it == s_last) return first; if (it == last) return last; if (!(*it == *s_it)) break;`.
The test `s_it == s_last` is the negation of the iterator's `operator!=`. -/
def search_inner {T : Type} [DecidableEq T] :
    List T → constant_iterator T → constant_iterator T → search_exit
  | [], s_it, s_last =>
    if s_it.ne s_last then search_exit.exhausted else search_exit.matched
  | x :: rest, s_it, s_last =>
    if s_it.ne s_last then
      if x = s_it.deref then search_inner rest s_it.inc s_last else search_exit.mismatch
    else search_exit.matched

/-- The outer loop of `std::search`, `while (true) { ...; ++first; }`, over the part `hay` of
the searched range that starts at index `first`. The result is the index of the returned
iterator, `first + hay.length` being `last`. -/
def search_from {T : Type} [DecidableEq T] :
    List T → Nat → constant_iterator T → constant_iterator T → Nat
  | [], first, _, _ => first
  | x :: rest, first, s_first, s_last =>
    match search_inner (x :: rest) s_first s_last with
    | search_exit.matched => first
    | search_exit.exhausted => first + (rest.length + 1)
    | search_exit.mismatch => search_from rest (first + 1) s_first s_last

/-- The call `std::search(v.begin(), v.end(), s_first, s_last)`. -/
def search {T : Type} [DecidableEq T] (v : List T)
    (s_first s_last : constant_iterator T) : Nat :=
  search_from v 0 s_first s_last

/-- The call `std::fill_n(v.begin() + first, n, value)`:
`for (; n > 0; --n) *first++ = value;`. -/
def fill_n {T : Type} : List T → Nat → Nat → T → List T
  | v, _, 0, _ => v
  | v, first, n + 1, value => fill_n (v.set first value) (first + 1) n value

/-! ## bitmap_memory_resource (lines 105-154) -/

/-- The constant `block_size_in_bytes_ = sizeof(std::size_t)`. -/
def block_size_in_bytes_ : Nat := 8

/-- The class `bitmap_memory_resource`: its two data members. -/
structure bitmap_memory_resource where
  buffer_ : Nat
  free_blocks_ : List Bool
deriving DecidableEq, Repr

namespace bitmap_memory_resource

/-- The constructor (lines 113-116): `free_blocks_(buffer_size_in_bytes / block_size_in_bytes_, true)`. -/
def construct (buffer : Nat) (buffer_size_in_bytes : Nat) : bitmap_memory_resource :=
  { buffer_ := buffer
    free_blocks_ := List.replicate (buffer_size_in_bytes / block_size_in_bytes_) true }

/-- Line 123: `num_blocks = (num_bytes + block_size_in_bytes_ - 1) / block_size_in_bytes_`. -/
def allocate_num_blocks (num_bytes : Nat) : Nat :=
  size_sub (size_add num_bytes block_size_in_bytes_) 1 / block_size_in_bytes_

/-- Line 149: `num_blocks = (num_bytes + block_size_in_bytes_ - 1) / block_size_in_bytes_`. -/
def deallocate_num_blocks (num_bytes : Nat) : Nat :=
  size_sub (size_add num_bytes block_size_in_bytes_) 1 / block_size_in_bytes_

/-- The member function `allocate` (lines 120-140): the returned pointer, `none` being
`nullptr`, and the resource after the call. -/
def allocate (self : bitmap_memory_resource) (num_bytes : Nat) :
    Option Nat × bitmap_memory_resource :=
  let num_blocks := allocate_num_blocks num_bytes
  let found := search self.free_blocks_
    (constant_iterator.mk2 true 0) (constant_iterator.mk2 true num_blocks)
  if found = self.free_blocks_.length then
    (none, self)
  else
    let free_blocks := fill_n self.free_blocks_ found num_blocks false
    let index_of_first_free_block := found
    (some (self.buffer_ + size_mul index_of_first_free_block block_size_in_bytes_),
      { self with free_blocks_ := free_blocks })

/-- The member function `deallocate` (lines 142-153). The result is `none` when
`free_blocks_.begin() + index_of_first_block` or one of the `num_blocks` writes is outside
the table, where the source has undefined behaviour. -/
def deallocate (self : bitmap_memory_resource) (ptr : Nat) (num_bytes : Nat) :
    Option bitmap_memory_resource :=
  let index_of_first_byte := ptr_diff ptr self.buffer_
  let index_of_first_block := index_of_first_byte / block_size_in_bytes_
  let num_blocks := deallocate_num_blocks num_bytes
  if index_of_first_block + num_blocks ≤ self.free_blocks_.length then
    some { self with
      free_blocks_ := fill_n self.free_blocks_ index_of_first_block num_blocks true }
  else
    none

end bitmap_memory_resource

/-! ## Vocabulary of the specification -/

/-- The ceiling of `n / b`. -/
def ceil_div (n b : Nat) : Nat := n / b + (if n % b = 0 then 0 else 1)

/-- The table `t` has `k` consecutive entries equal to `v` starting at index `i`. -/
def run_at {T : Type} (v : T) (t : List T) (i k : Nat) : Prop :=
  i + k ≤ t.length ∧ ∀ j, j < k → t[i + j]? = some v

/-- The table of the resource fits a buffer whose size is a `std::size_t`: the constructor
makes `buffer_size_in_bytes / block_size_in_bytes_` entries and nothing changes the length. -/
def well_formed (self : bitmap_memory_resource) : Prop :=
  self.free_blocks_.length * block_size_in_bytes_ < size_mod

instance {T : Type} [DecidableEq T] (v : T) (t : List T) (i k : Nat) :
    Decidable (run_at v t i k) := by
  unfold run_at; exact inferInstance

instance (self : bitmap_memory_resource) : Decidable (well_formed self) := by
  unfold well_formed; exact inferInstance

open bitmap_memory_resource

/-- Two address ranges `[p, p + n)`, each given as the pair `(p, n)`, share an address. -/
def ranges_overlap (a b : Nat × Nat) : Prop :=
  ∃ x, a.1 ≤ x ∧ x < a.1 + a.2 ∧ b.1 ≤ x ∧ x < b.1 + b.2

/-- A call made on the resource by its user. -/
inductive call where
  | allocate (num_bytes : Nat)
  | deallocate (ptr : Nat) (num_bytes : Nat)
deriving DecidableEq, Repr

/-- The resource together with the caller's record of the live allocations: the address and
byte count of every allocation returned by `allocate` and not yet passed to `deallocate`. -/
structure session where
  resource : bitmap_memory_resource
  live : List (Nat × Nat)
deriving DecidableEq, Repr

/-- One call of a session. An `allocate` that returns an address adds a live allocation. A
`deallocate` is legal only with the address and byte count of a live allocation, which it
retires; the result is `none` for any other `deallocate`. -/
def session.step (s : session) : call → Option session
  | call.allocate num_bytes =>
    match (allocate s.resource num_bytes).1 with
    | none => some ⟨(allocate s.resource num_bytes).2, s.live⟩
    | some p => some ⟨(allocate s.resource num_bytes).2, (p, num_bytes) :: s.live⟩
  | call.deallocate ptr num_bytes =>
    if (ptr, num_bytes) ∈ s.live then
      match deallocate s.resource ptr num_bytes with
      | none => none
      | some r => some ⟨r, s.live.erase (ptr, num_bytes)⟩
    else none

/-- A sequence of calls, from left to right. -/
def session.run : session → List call → Option session
  | s, [] => some s
  | s, c :: cs =>
    match s.step c with
    | none => none
    | some s1 => s1.run cs

/-- The session that starts with a freshly constructed resource. -/
def session.fresh (buffer buffer_size_in_bytes : Nat) : session :=
  ⟨construct buffer buffer_size_in_bytes, []⟩

/-- The live allocation `a = (p, n)` of a resource with buffer address `b` holds block `j`:
the block starts inside the `num_blocks` blocks counted from `p`. -/
def held (b : Nat) (a : Nat × Nat) (j : Nat) : Prop :=
  a.1 ≤ b + j * block_size_in_bytes_
    ∧ b + j * block_size_in_bytes_ < a.1 + allocate_num_blocks a.2 * block_size_in_bytes_

/-- The live allocation `a = (p, n)` is backed by the table of `r`: its byte count rounds up
without wrapping, `p` is the address of a block, and its blocks are inside the table and
marked occupied. -/
def owned (r : bitmap_memory_resource) (a : Nat × Nat) : Prop :=
  a.2 + block_size_in_bytes_ - 1 < size_mod
    ∧ ∃ i, a.1 = r.buffer_ + i * block_size_in_bytes_
      ∧ i + allocate_num_blocks a.2 ≤ r.free_blocks_.length
      ∧ ∀ j, i ≤ j → j < i + allocate_num_blocks a.2 → r.free_blocks_[j]? = some false

/-- The invariant of a session whose byte counts round up without wrapping: every live
allocation is backed by the table and no block is held by two live allocations. -/
def session.inv (s : session) : Prop :=
  well_formed s.resource
    ∧ (∀ a, a ∈ s.live → owned s.resource a)
    ∧ s.live.Pairwise (fun a b => ∀ j, ¬ (held s.resource.buffer_ a j
        ∧ held s.resource.buffer_ b j))

/-- The byte count of the call, if it is an `allocate`, rounds up without wrapping. -/
def call.no_wrap : call → Prop
  | call.allocate num_bytes => num_bytes + block_size_in_bytes_ - 1 < size_mod
  | call.deallocate _ _ => True

instance (c : call) : Decidable c.no_wrap := by
  cases c <;> unfold call.no_wrap <;> exact inferInstance

/-- The loop `for (it = first; it != last; ++it)` over two iterators, run for at most `fuel`
increments: the iterators it visits, or `none` when `last` is not reached within `fuel`. -/
def constant_iterator.traverse {T : Type} :
    Nat → constant_iterator T → constant_iterator T → Option (List (constant_iterator T))
  | 0, it, last => if it.ne last then none else some []
  | fuel + 1, it, last =>
    if it.ne last then (constant_iterator.traverse fuel it.inc last).map (fun rest => it :: rest)
    else some []

/-- The direct linear scan of the specification's design notes, for a run of `k` free
entries: `run` is the length of the run of `true` entries that ends just before index `idx`,
the scan reports the start `idx - k` of the run as soon as `run` reaches `k`, and reports the
index past the last entry when the table ends first. -/
def linear_scan (k : Nat) : List Bool → Nat → Nat → Nat
  | [], idx, run => if run = k then idx - k else idx
  | b :: rest, idx, run =>
    if run = k then idx - k
    else if b then linear_scan k rest (idx + 1) (run + 1)
    else linear_scan k rest (idx + 1) 0

/-- The index `res` is the first-fit answer for a run of `k` entries equal to `v` in `t`: the
least index at which such a run starts, or the length of `t` when there is none. -/
def is_first_fit {T : Type} (v : T) (t : List T) (k res : Nat) : Prop :=
  ((∃ i, run_at v t i k) → run_at v t res k ∧ ∀ j, j < res → ¬ run_at v t j k)
    ∧ ((¬ ∃ i, run_at v t i k) → res = t.length)

/-! ## Lemmas on machine words -/

theorem size_add_small (a b : Nat) (h : a + b < size_mod) : size_add a b = a + b := by
  unfold size_add; exact Nat.mod_eq_of_lt h

theorem size_mul_small (a b : Nat) (h : a * b < size_mod) : size_mul a b = a * b := by
  unfold size_mul; exact Nat.mod_eq_of_lt h

theorem size_sub_eq_mod (a b : Nat) (ha : a < size_mod) (hb : b < size_mod) :
    size_sub a b = (a + size_mod - b) % size_mod := by
  unfold size_sub size_mod at *
  split_ifs <;> omega

theorem size_add_lt (a b : Nat) : size_add a b < size_mod := by
  unfold size_add size_mod; omega

theorem ptr_diff_add (q off : Nat) : ptr_diff (q + off) q = off := by
  unfold ptr_diff
  rw [if_pos (Nat.le_add_right q off)]
  omega

theorem num_blocks_eq_mod (num_bytes : Nat) :
    allocate_num_blocks num_bytes
      = ((num_bytes + block_size_in_bytes_) % size_mod + size_mod - 1) % size_mod
          / block_size_in_bytes_ := by
  unfold allocate_num_blocks
  rw [size_sub_eq_mod _ _ (size_add_lt _ _) (by decide)]
  rfl

theorem allocate_num_blocks_lt (num_bytes : Nat) : allocate_num_blocks num_bytes < size_mod := by
  rw [num_blocks_eq_mod]
  unfold block_size_in_bytes_ size_mod; omega

theorem allocate_num_blocks_eq_ceil (num_bytes : Nat)
    (h : num_bytes + block_size_in_bytes_ - 1 < size_mod) :
    allocate_num_blocks num_bytes = ceil_div num_bytes block_size_in_bytes_ := by
  rw [num_blocks_eq_mod]
  unfold ceil_div block_size_in_bytes_ size_mod at *
  split_ifs <;> omega

/-- The function `ceil_div` with divisor `block_size_in_bytes_` is the ceiling of the
quotient: the least `q` with `n ≤ q * block_size_in_bytes_`. -/
theorem ceil_div_le_iff (n q : Nat) :
    ceil_div n block_size_in_bytes_ ≤ q ↔ n ≤ q * block_size_in_bytes_ := by
  unfold ceil_div block_size_in_bytes_
  split_ifs <;> omega

theorem deallocate_num_blocks_eq (num_bytes : Nat) :
    deallocate_num_blocks num_bytes = allocate_num_blocks num_bytes := rfl

/-! ## Lemmas on std::fill_n -/

theorem fill_n_length {T : Type} (v : List T) (first n : Nat) (x : T) :
    (fill_n v first n x).length = v.length := by
  induction n generalizing v first with
  | zero => rfl
  | succ n ih => rw [fill_n, ih, List.length_set]

theorem fill_n_getElem? {T : Type} (v : List T) (first n : Nat) (x : T) (j : Nat) :
    (fill_n v first n x)[j]?
      = if first ≤ j ∧ j < first + n ∧ j < v.length then some x else v[j]? := by
  induction n generalizing v first with
  | zero =>
    have : ¬ (first ≤ j ∧ j < first + 0 ∧ j < v.length) := by omega
    rw [fill_n, if_neg this]
  | succ n ih =>
    rw [fill_n, ih, List.length_set, List.getElem?_set]
    by_cases h1 : first = j
    · subst h1
      by_cases h2 : first < v.length
      · have a : ¬ (first + 1 ≤ first ∧ first < first + 1 + n ∧ first < v.length) := by omega
        have b : first ≤ first ∧ first < first + (n + 1) ∧ first < v.length := by omega
        rw [if_neg a, if_pos rfl, if_pos h2, if_pos b]
      · have a : ¬ (first + 1 ≤ first ∧ first < first + 1 + n ∧ first < v.length) := by omega
        have b : ¬ (first ≤ first ∧ first < first + (n + 1) ∧ first < v.length) := by omega
        rw [if_neg a, if_pos rfl, if_neg h2, if_neg b]
        exact (List.getElem?_eq_none (by omega)).symm
    · rw [if_neg h1]
      by_cases h3 : first + 1 ≤ j ∧ j < first + 1 + n ∧ j < v.length
      · have b : first ≤ j ∧ j < first + (n + 1) ∧ j < v.length := by omega
        rw [if_pos h3, if_pos b]
      · have b : ¬ (first ≤ j ∧ j < first + (n + 1) ∧ j < v.length) := by omega
        rw [if_neg h3, if_neg b]

/-! ## Lemmas on runs -/

theorem run_at_nil_pattern {T : Type} (v : T) (t : List T) : run_at v t 0 0 :=
  ⟨Nat.zero_le _, fun j hj => absurd hj (Nat.not_lt_zero j)⟩

theorem run_at_cons_zero {T : Type} (v x : T) (rest : List T) (m : Nat) :
    run_at v (x :: rest) 0 (m + 1) ↔ x = v ∧ run_at v rest 0 m := by
  unfold run_at
  constructor
  · rintro ⟨hl, h⟩
    refine ⟨?_, ?_, ?_⟩
    · have := h 0 (by omega)
      simpa using this
    · simp only [List.length_cons] at hl; omega
    · intro j hj
      have := h (j + 1) (by omega)
      rw [show 0 + (j + 1) = (0 + j) + 1 by omega, List.getElem?_cons_succ] at this
      exact this
  · rintro ⟨hx, hl, h⟩
    refine ⟨by simp only [List.length_cons]; omega, ?_⟩
    intro j hj
    cases j with
    | zero => simp [hx]
    | succ j =>
      rw [show 0 + (j + 1) = (0 + j) + 1 by omega, List.getElem?_cons_succ]
      exact h j (by omega)

theorem run_at_cons_succ {T : Type} (v x : T) (rest : List T) (i k : Nat) :
    run_at v (x :: rest) (i + 1) k ↔ run_at v rest i k := by
  unfold run_at
  simp only [List.length_cons]
  constructor
  · rintro ⟨hl, h⟩
    refine ⟨by omega, fun j hj => ?_⟩
    have := h j hj
    rw [show i + 1 + j = (i + j) + 1 by omega, List.getElem?_cons_succ] at this
    exact this
  · rintro ⟨hl, h⟩
    refine ⟨by omega, fun j hj => ?_⟩
    rw [show i + 1 + j = (i + j) + 1 by omega, List.getElem?_cons_succ]
    exact h j hj

/-! ## Lemmas on std::search -/

theorem search_inner_spec {T : Type} [DecidableEq T] (v : T) (hay : List T) (p k : Nat)
    (hp : p ≤ k) (hk : k < size_mod) :
    (search_inner hay ⟨v, p⟩ ⟨v, k⟩ = search_exit.matched → run_at v hay 0 (k - p))
    ∧ (search_inner hay ⟨v, p⟩ ⟨v, k⟩ = search_exit.exhausted → hay.length < k - p)
    ∧ (search_inner hay ⟨v, p⟩ ⟨v, k⟩ = search_exit.mismatch → ¬ run_at v hay 0 (k - p)) := by
  induction hay generalizing p with
  | nil =>
    by_cases hpk : p = k
    · subst hpk
      simp only [search_inner, constant_iterator.ne, bne_self_eq_false, Bool.false_eq_true,
        if_false, Nat.sub_self]
      exact ⟨fun _ => run_at_nil_pattern v [], by simp, by simp⟩
    · have hne : (p != k) = true := by simpa using hpk
      simp only [search_inner, constant_iterator.ne, hne, if_true, List.length_nil]
      exact ⟨by simp, fun _ => by omega, by simp⟩
  | cons x rest ih =>
    by_cases hpk : p = k
    · subst hpk
      simp only [search_inner, constant_iterator.ne, bne_self_eq_false, Bool.false_eq_true,
        if_false, Nat.sub_self]
      exact ⟨fun _ => run_at_nil_pattern v _, by simp, by simp⟩
    · have hne : (p != k) = true := by simpa using hpk
      have hinc : (constant_iterator.inc ⟨v, p⟩ : constant_iterator T) = ⟨v, p + 1⟩ := by
        simp only [constant_iterator.inc]
        rw [size_add_small p 1 (by omega)]
      have hkp : k - p = (k - (p + 1)) + 1 := by omega
      by_cases hx : x = v
      · simp only [search_inner, constant_iterator.ne, hne, if_true, constant_iterator.deref,
          hx, hinc, List.length_cons]
        obtain ⟨h1, h2, h3⟩ := ih (p + 1) (by omega)
        refine ⟨fun h => ?_, fun h => ?_, fun h => ?_⟩
        · rw [hkp, run_at_cons_zero]; exact ⟨rfl, h1 h⟩
        · have := h2 h; omega
        · rw [hkp, run_at_cons_zero]; exact fun hh => h3 h hh.2
      · simp only [search_inner, constant_iterator.ne, hne, if_true, constant_iterator.deref,
          hx, if_false]
        refine ⟨by simp, by simp, fun _ => ?_⟩
        rw [hkp, run_at_cons_zero]; exact fun hh => hx hh.1

/-- The result of `std::search` for the pattern of `k` copies of `v`: the first index at
which a run of `k` copies starts, or the length of the searched range when there is none. -/
theorem search_from_spec {T : Type} [DecidableEq T] (v : T) (hay : List T) (first k : Nat)
    (hk : k < size_mod) :
    ((∃ i, run_at v hay i k) →
      ∃ i, run_at v hay i k ∧ (∀ j, j < i → ¬ run_at v hay j k)
        ∧ search_from hay first ⟨v, 0⟩ ⟨v, k⟩ = first + i)
    ∧ ((¬ ∃ i, run_at v hay i k) →
      search_from hay first ⟨v, 0⟩ ⟨v, k⟩ = first + hay.length) := by
  induction hay generalizing first with
  | nil =>
    refine ⟨fun ⟨i, hi⟩ => ?_, fun _ => rfl⟩
    have hl := hi.1
    simp only [List.length_nil] at hl
    have hi0 : i = 0 := by omega
    subst hi0
    exact ⟨0, hi, fun j hj => absurd hj (Nat.not_lt_zero j), rfl⟩
  | cons x rest ih =>
    obtain ⟨h1, h2, h3⟩ := search_inner_spec v (x :: rest) 0 k (Nat.zero_le k) hk
    rw [Nat.sub_zero] at h1 h2 h3
    cases hin : search_inner (x :: rest) ⟨v, 0⟩ ⟨v, k⟩ with
    | matched =>
      have hres : search_from (x :: rest) first ⟨v, 0⟩ ⟨v, k⟩ = first := by
        simp only [search_from, hin]
      refine ⟨fun _ => ⟨0, h1 hin, fun j hj => absurd hj (Nat.not_lt_zero j), hres⟩, fun hno => ?_⟩
      exact absurd ⟨0, h1 hin⟩ hno
    | exhausted =>
      have hres : search_from (x :: rest) first ⟨v, 0⟩ ⟨v, k⟩ = first + (x :: rest).length := by
        simp only [search_from, hin, List.length_cons]
      refine ⟨fun ⟨i, hi⟩ => ?_, fun _ => hres⟩
      have := h2 hin
      have := hi.1
      omega
    | mismatch =>
      have hres : search_from (x :: rest) first ⟨v, 0⟩ ⟨v, k⟩
          = search_from rest (first + 1) ⟨v, 0⟩ ⟨v, k⟩ := by
        simp only [search_from, hin]
      have hno0 := h3 hin
      obtain ⟨ih1, ih2⟩ := ih (first + 1)
      refine ⟨fun ⟨i, hi⟩ => ?_, fun hno => ?_⟩
      · cases i with
        | zero => exact absurd hi hno0
        | succ i =>
          obtain ⟨m, hm, hmin, hs⟩ := ih1 ⟨i, (run_at_cons_succ v x rest i k).1 hi⟩
          refine ⟨m + 1, (run_at_cons_succ v x rest m k).2 hm, fun j hj => ?_, ?_⟩
          · cases j with
            | zero => exact hno0
            | succ j =>
              rw [run_at_cons_succ]
              exact hmin j (by omega)
          · rw [hres, hs]; omega
      · rw [hres, ih2 (fun ⟨i, hi⟩ => hno ⟨i + 1, (run_at_cons_succ v x rest i k).2 hi⟩)]
        simp only [List.length_cons]; omega

/-! ## Lemmas on allocate and deallocate -/

theorem well_formed_index (self : bitmap_memory_resource) (hwf : well_formed self) (i : Nat)
    (hi : i ≤ self.free_blocks_.length) :
    size_mul i block_size_in_bytes_ = i * block_size_in_bytes_ := by
  apply size_mul_small
  unfold well_formed block_size_in_bytes_ size_mod at *
  omega

/-- The two outcomes of `allocate`: `nullptr` with the resource untouched, or the address of
the first run of `num_blocks` free blocks with exactly that run marked. -/
theorem allocate_cases (self : bitmap_memory_resource) (num_bytes : Nat)
    (hwf : well_formed self) :
    (allocate self num_bytes = (none, self)
      ∧ ((¬ ∃ i, run_at true self.free_blocks_ i (allocate_num_blocks num_bytes))
          ∨ self.free_blocks_ = []))
    ∨ ∃ i, i < self.free_blocks_.length
        ∧ run_at true self.free_blocks_ i (allocate_num_blocks num_bytes)
        ∧ (∀ j, j < i → ¬ run_at true self.free_blocks_ j (allocate_num_blocks num_bytes))
        ∧ (allocate self num_bytes).1 = some (self.buffer_ + i * block_size_in_bytes_)
        ∧ (allocate self num_bytes).2
            = ⟨self.buffer_, fill_n self.free_blocks_ i (allocate_num_blocks num_bytes) false⟩ := by
  obtain ⟨h1, h2⟩ := search_from_spec true self.free_blocks_ 0
    (allocate_num_blocks num_bytes) (allocate_num_blocks_lt num_bytes)
  by_cases hrun : ∃ i, run_at true self.free_blocks_ i (allocate_num_blocks num_bytes)
  · obtain ⟨i, hi, hmin, hs⟩ := h1 hrun
    rw [Nat.zero_add] at hs
    by_cases hlen : i = self.free_blocks_.length
    · left
      have hk0 := hi.1
      have hnil : self.free_blocks_ = [] := by
        by_contra hne
        have hpos : 0 < self.free_blocks_.length := List.length_pos.2 hne
        have h0 : run_at true self.free_blocks_ 0 (allocate_num_blocks num_bytes) := by
          have : allocate_num_blocks num_bytes = 0 := by omega
          rw [this]; exact run_at_nil_pattern true _
        exact hmin 0 (by omega) h0
      refine ⟨?_, Or.inr hnil⟩
      simp only [allocate, search, constant_iterator.mk2, hs, hlen, if_true]
    · right
      have hidx := well_formed_index self hwf i (by have := hi.1; omega)
      refine ⟨i, ?_, hi, hmin, ?_, ?_⟩
      · have := hi.1; omega
      · simp only [allocate, search, constant_iterator.mk2, hs, hlen, if_false, hidx]
      · simp only [allocate, search, constant_iterator.mk2, hs, hlen, if_false]
  · left
    have hs := h2 hrun
    rw [Nat.zero_add] at hs
    refine ⟨?_, Or.inl hrun⟩
    simp only [allocate, search, constant_iterator.mk2, hs, if_true]

theorem allocate_preserves_well_formed (self : bitmap_memory_resource) (num_bytes : Nat)
    (hwf : well_formed self) : well_formed (allocate self num_bytes).2 := by
  rcases allocate_cases self num_bytes hwf with ⟨h, _⟩ | ⟨i, _, _, _, _, h⟩
  · rw [h]; exact hwf
  · rw [h]; unfold well_formed at *; simp only [fill_n_length]; exact hwf

theorem construct_well_formed (buffer S : Nat) (hS : S < size_mod) :
    well_formed (construct buffer S) := by
  unfold well_formed construct
  simp only [List.length_replicate]
  unfold block_size_in_bytes_ size_mod at *
  omega

theorem deallocate_in_range (self : bitmap_memory_resource) (i num_bytes : Nat)
    (hr : i + deallocate_num_blocks num_bytes ≤ self.free_blocks_.length) :
    deallocate self (self.buffer_ + i * block_size_in_bytes_) num_bytes
      = some ⟨self.buffer_,
          fill_n self.free_blocks_ i (deallocate_num_blocks num_bytes) true⟩ := by
  have hoff : ptr_diff (self.buffer_ + i * block_size_in_bytes_) self.buffer_
      = i * block_size_in_bytes_ := ptr_diff_add _ _
  have hdiv : i * block_size_in_bytes_ / block_size_in_bytes_ = i := by
    unfold block_size_in_bytes_; omega
  simp only [deallocate, hoff, hdiv, hr, if_true]

/-! ## Rounding of the byte count (lines 123 and 149) -/

/-- A run of `ceil(num_bytes / block_size)` blocks inside a well-formed table: the byte count
is a `std::size_t` whose rounding does not wrap, and line 123 computes the ceiling. -/
theorem num_blocks_of_run (self : bitmap_memory_resource) (num_bytes i : Nat)
    (hwf : well_formed self)
    (hr : i + ceil_div num_bytes block_size_in_bytes_ ≤ self.free_blocks_.length) :
    allocate_num_blocks num_bytes = ceil_div num_bytes block_size_in_bytes_ := by
  apply allocate_num_blocks_eq_ceil
  unfold well_formed ceil_div block_size_in_bytes_ size_mod at *
  split_ifs at hr <;> omega

/-! ## Sessions whose byte counts do not wrap -/

theorem pairwise_erase_rel {α : Type} [BEq α] [LawfulBEq α] (R : α → α → Prop) (l : List α)
    (a b : α) (hp : l.Pairwise R) (ha : a ∈ l) (hb : b ∈ l.erase a) : R a b ∨ R b a := by
  induction l with
  | nil => exact absurd ha (List.not_mem_nil a)
  | cons x xs ih =>
    rw [List.pairwise_cons] at hp
    by_cases hx : x = a
    · subst hx
      rw [List.erase_cons_head] at hb
      exact Or.inl (hp.1 b hb)
    · rw [List.erase_cons_tail (by simpa using hx)] at hb
      have ha2 : a ∈ xs := by
        rcases List.mem_cons.1 ha with h | h
        · exact absurd h.symm hx
        · exact h
      rcases List.mem_cons.1 hb with h | h
      · subst h
        exact Or.inr (hp.1 a ha2)
      · exact ih hp.2 ha2 h

theorem held_iff (b : Nat) (a : Nat × Nat) (i j : Nat)
    (ha : a.1 = b + i * block_size_in_bytes_) :
    held b a j ↔ i ≤ j ∧ j < i + allocate_num_blocks a.2 := by
  unfold held block_size_in_bytes_ at *
  omega

theorem step_allocate_inv (s : session) (n : Nat)
    (hn : n + block_size_in_bytes_ - 1 < size_mod) (hinv : s.inv) :
    ∃ s1, s.step (call.allocate n) = some s1 ∧ s1.inv := by
  obtain ⟨hwf, hown, hpw⟩ := hinv
  rcases allocate_cases s.resource n hwf with ⟨hnone, _⟩ | ⟨i, hlt, hi, _, hs1, hs2⟩
  · have h1 : (allocate s.resource n).1 = none := by rw [hnone]
    have h2 : (allocate s.resource n).2 = s.resource := by rw [hnone]
    refine ⟨⟨s.resource, s.live⟩, ?_, hwf, hown, hpw⟩
    simp only [session.step, h1, h2]
  · refine ⟨⟨⟨s.resource.buffer_,
        fill_n s.resource.free_blocks_ i (allocate_num_blocks n) false⟩,
        (s.resource.buffer_ + i * block_size_in_bytes_, n) :: s.live⟩, ?_, ?_, ?_, ?_⟩
    · simp only [session.step, hs1, hs2]
    · unfold well_formed at *
      simp only [fill_n_length]
      exact hwf
    · intro a ha
      simp only [List.mem_cons] at ha
      rcases ha with h | h
      · subst h
        refine ⟨hn, i, ?_, ?_, fun j h1 h2 => ?_⟩
        · simp only
        · simp only [fill_n_length]
          exact hi.1
        · have hl := hi.1
          simp only at h1 h2
          simp only [fill_n_getElem?]
          rw [if_pos ⟨h1, h2, by omega⟩]
      · obtain ⟨ha1, m, ha2, ha3, ha4⟩ := hown a h
        refine ⟨ha1, m, ?_, ?_, fun j h1 h2 => ?_⟩
        · simp only
          exact ha2
        · simp only [fill_n_length]
          exact ha3
        · simp only [fill_n_getElem?]
          split_ifs
          · rfl
          · exact ha4 j h1 h2
    · simp only [List.pairwise_cons]
      refine ⟨fun a ha j hj => ?_, hpw⟩
      obtain ⟨_, m, ha2, _, ha4⟩ := hown a ha
      rw [held_iff _ _ i j rfl, held_iff _ _ m j ha2] at hj
      simp only at hj
      have ht := hi.2 (j - i) (by omega)
      rw [show i + (j - i) = j by omega] at ht
      have hf := ha4 j hj.2.1 hj.2.2
      rw [ht] at hf
      exact absurd hf (by simp)

theorem step_deallocate_inv (s : session) (p n : Nat)
    (hmem : (p, n) ∈ s.live) (hinv : s.inv) :
    ∃ s1, s.step (call.deallocate p n) = some s1 ∧ s1.inv := by
  obtain ⟨hwf, hown, hpw⟩ := hinv
  obtain ⟨_, i, hp, hr, _⟩ := hown (p, n) hmem
  simp only at hp hr
  have hd := deallocate_in_range s.resource i n hr
  rw [← hp, deallocate_num_blocks_eq] at hd
  refine ⟨⟨⟨s.resource.buffer_,
      fill_n s.resource.free_blocks_ i (allocate_num_blocks n) true⟩,
      s.live.erase (p, n)⟩, ?_, ?_, ?_, ?_⟩
  · simp only [session.step, hmem, if_true, hd]
  · unfold well_formed at *
    simp only [fill_n_length]
    exact hwf
  · intro a ha
    simp only at ha
    have hal : a ∈ s.live := List.mem_of_mem_erase ha
    obtain ⟨ha1, m, ha2, ha3, ha4⟩ := hown a hal
    refine ⟨ha1, m, ?_, ?_, fun j h1 h2 => ?_⟩
    · simp only
      exact ha2
    · simp only [fill_n_length]
      exact ha3
    · have hdis : ¬ (held s.resource.buffer_ (p, n) j ∧ held s.resource.buffer_ a j) := by
        rcases pairwise_erase_rel _ s.live (p, n) a hpw hmem ha with h | h
        · exact h j
        · exact fun hh => h j ⟨hh.2, hh.1⟩
      rw [held_iff _ _ i j hp, held_iff _ _ m j ha2] at hdis
      have hnot : ¬ (i ≤ j ∧ j < i + allocate_num_blocks n
          ∧ j < s.resource.free_blocks_.length) := by
        simp only at hdis
        omega
      simp only [fill_n_getElem?]
      rw [if_neg hnot]
      exact ha4 j h1 h2
  · exact hpw.sublist (List.erase_sublist _ _)

theorem fresh_inv (buffer S : Nat) (hS : S < size_mod) : (session.fresh buffer S).inv :=
  ⟨construct_well_formed buffer S hS, fun a ha => absurd ha (List.not_mem_nil a),
    List.Pairwise.nil⟩

theorem step_inv (s s1 : session) (c : call) (hc : c.no_wrap) (hinv : s.inv)
    (h : s.step c = some s1) : s1.inv := by
  cases c with
  | allocate n =>
    obtain ⟨s2, h2, hi2⟩ := step_allocate_inv s n hc hinv
    rw [h2] at h
    rw [← Option.some.inj h]
    exact hi2
  | deallocate p n =>
    by_cases hmem : (p, n) ∈ s.live
    · obtain ⟨s2, h2, hi2⟩ := step_deallocate_inv s p n hmem hinv
      rw [h2] at h
      rw [← Option.some.inj h]
      exact hi2
    · simp only [session.step, hmem, if_false] at h
      exact absurd h (by simp)

theorem run_inv (cs : List call) (s s1 : session) (hcs : ∀ c, c ∈ cs → c.no_wrap)
    (hinv : s.inv) (h : s.run cs = some s1) : s1.inv := by
  induction cs generalizing s with
  | nil =>
    simp only [session.run] at h
    rw [← Option.some.inj h]
    exact hinv
  | cons c cs ih =>
    cases hstep : s.step c with
    | none =>
      simp only [session.run, hstep] at h
      exact absurd h (by simp)
    | some s2 =>
      simp only [session.run, hstep] at h
      exact ih s2 (fun d hd => hcs d (List.mem_cons_of_mem c hd))
        (step_inv s s2 c (hcs c (List.mem_cons_self c cs)) hinv hstep) h

theorem live_ranges_disjoint (s : session) (hinv : s.inv) :
    s.live.Pairwise (fun a b => ¬ ranges_overlap a b) := by
  obtain ⟨_, hown, hpw⟩ := hinv
  refine List.Pairwise.imp_of_mem ?_ hpw
  intro a b ha hb hdis hov
  obtain ⟨x, hx1, hx2, hx3, hx4⟩ := hov
  obtain ⟨ha1, i, ha2, _, _⟩ := hown a ha
  obtain ⟨hb1, m, hb2, _, _⟩ := hown b hb
  apply hdis ((x - s.resource.buffer_) / block_size_in_bytes_)
  rw [held_iff _ _ i _ ha2, held_iff _ _ m _ hb2]
  have hka := num_blocks_eq_mod a.2
  have hkb := num_blocks_eq_mod b.2
  unfold block_size_in_bytes_ size_mod at *
  omega

/-! ## C1: first fit -/

/-- C1. First fit: when `k = ceil(num_bytes / block_size)` is at least 1 and the table has a
run of `k` consecutive free entries, `allocate(num_bytes)` returns
`buffer + i * block_size` for the smallest index `i` at which such a run starts. -/
theorem C1_first_fit (self : bitmap_memory_resource) (num_bytes : Nat)
    (hwf : well_formed self)
    (hk : 1 ≤ ceil_div num_bytes block_size_in_bytes_)
    (hrun : ∃ i, run_at true self.free_blocks_ i (ceil_div num_bytes block_size_in_bytes_)) :
    ∃ i, run_at true self.free_blocks_ i (ceil_div num_bytes block_size_in_bytes_)
      ∧ (∀ j, j < i →
          ¬ run_at true self.free_blocks_ j (ceil_div num_bytes block_size_in_bytes_))
      ∧ (allocate self num_bytes).1 = some (self.buffer_ + i * block_size_in_bytes_) := by
  obtain ⟨i0, hi0⟩ := hrun
  have hnb := num_blocks_of_run self num_bytes i0 hwf hi0.1
  rcases allocate_cases self num_bytes hwf with ⟨_, hno | hnil⟩ | ⟨i, _, hi, hmin, h, _⟩
  · rw [hnb] at hno
    exact absurd ⟨i0, hi0⟩ hno
  · have := hi0.1
    rw [hnil, List.length_nil] at this
    omega
  · rw [hnb] at hi hmin
    exact ⟨i, hi, hmin, h⟩

/-- C1, on the table of the specification's example (blocks 0, 1 and 4, 5, 6 free): a request
of 24 bytes needs three blocks and is placed at block 4. -/
theorem C1_first_fit_witness :
    well_formed ⟨1000, [true, true, false, false, true, true, true, false]⟩
    ∧ 1 ≤ ceil_div 24 block_size_in_bytes_
    ∧ (∃ i, run_at true [true, true, false, false, true, true, true, false] i
          (ceil_div 24 block_size_in_bytes_))
    ∧ ∃ i, run_at true [true, true, false, false, true, true, true, false] i
          (ceil_div 24 block_size_in_bytes_)
      ∧ (∀ j, j < i → ¬ run_at true [true, true, false, false, true, true, true, false] j
          (ceil_div 24 block_size_in_bytes_))
      ∧ (allocate ⟨1000, [true, true, false, false, true, true, true, false]⟩ 24).1
          = some (1000 + i * block_size_in_bytes_) :=
  ⟨by decide, by decide, ⟨4, by decide⟩,
    C1_first_fit ⟨1000, [true, true, false, false, true, true, true, false]⟩ 24
      (by decide) (by decide) ⟨4, by decide⟩⟩

/-! ## C2: exhaustion -/

/-- C2. The code at the byte count `2 ^ 64 - 1`, where the sum of line 123 wraps and
`num_blocks` is zero: a table of one free block has no run of `ceil(n / block_size) = 2 ^ 61`
entries, so exhaustion asks for `nullptr`, and `allocate` returns the address `buffer + 0`.
The table is unchanged. -/
theorem C2_failing_input :
    (¬ ∃ i, run_at true [true] i (ceil_div (size_mod - 1) block_size_in_bytes_))
    ∧ allocate ⟨1000, [true]⟩ (size_mod - 1) = (some 1000, ⟨1000, [true]⟩) := by
  refine ⟨?_, by decide⟩
  rintro ⟨i, hl, _⟩
  have hc : ceil_div (size_mod - 1) block_size_in_bytes_ = 2305843009213693952 := by decide
  rw [hc] at hl
  simp only [List.length_singleton] at hl
  omega

/-- Exhaustion for every byte count `n` whose rounding on line 123 does not wrap
(`n + block_size - 1 < 2 ^ 64`): when the table has no run of `ceil(n / block_size)` free
entries, `allocate(n)` returns `nullptr` and the resource, the table included, is what it was
before the call. -/
theorem exhaustion_without_wrap (self : bitmap_memory_resource) (n : Nat)
    (hwf : well_formed self) (hn : n + block_size_in_bytes_ - 1 < size_mod)
    (hno : ¬ ∃ i, run_at true self.free_blocks_ i (ceil_div n block_size_in_bytes_)) :
    allocate self n = (none, self) := by
  rw [← allocate_num_blocks_eq_ceil n hn] at hno
  rcases allocate_cases self n hwf with ⟨h, _⟩ | ⟨i, _, hi, _, _, _⟩
  · exact h
  · exact absurd ⟨i, hi⟩ hno

/-- Exhaustion on the third step of the specification's scenario: only block 7 is free and
16 bytes need two blocks. -/
theorem exhaustion_without_wrap_example :
    well_formed ⟨1000, [false, false, false, false, false, false, false, true]⟩
    ∧ 16 + block_size_in_bytes_ - 1 < size_mod
    ∧ (¬ ∃ i, run_at true [false, false, false, false, false, false, false, true] i
          (ceil_div 16 block_size_in_bytes_))
    ∧ allocate ⟨1000, [false, false, false, false, false, false, false, true]⟩ 16
        = (none, ⟨1000, [false, false, false, false, false, false, false, true]⟩) :=
  have hno : ¬ ∃ i, run_at true [false, false, false, false, false, false, false, true] i
      (ceil_div 16 block_size_in_bytes_) := by
    rintro ⟨i, hl, h⟩
    have hc : ceil_div 16 block_size_in_bytes_ = 2 := by decide
    rw [hc] at hl h
    simp only [List.length_cons, List.length_nil] at hl
    have h0 := h 0 (by omega)
    have hi : i ≤ 6 := by omega
    interval_cases i <;> simp at h0
  ⟨by decide, by decide, hno,
    exhaustion_without_wrap ⟨1000, [false, false, false, false, false, false, false, true]⟩ 16
      (by decide) (by decide) hno⟩

/-! ## C3: what a successful allocate does to the table -/

/-- The postcondition of a successful `allocate` in terms of the block count of line 123:
the run was free, is occupied afterwards, and nothing else changes. -/
theorem allocate_success_post (self : bitmap_memory_resource) (num_bytes p : Nat)
    (hwf : well_formed self) (h : (allocate self num_bytes).1 = some p) :
    ∃ i, p = self.buffer_ + i * block_size_in_bytes_
      ∧ i < self.free_blocks_.length
      ∧ run_at true self.free_blocks_ i (allocate_num_blocks num_bytes)
      ∧ (allocate self num_bytes).2.buffer_ = self.buffer_
      ∧ (allocate self num_bytes).2.free_blocks_.length = self.free_blocks_.length
      ∧ (∀ j, i ≤ j → j < i + allocate_num_blocks num_bytes →
          (allocate self num_bytes).2.free_blocks_[j]? = some false)
      ∧ (∀ j, (j < i ∨ i + allocate_num_blocks num_bytes ≤ j) →
          (allocate self num_bytes).2.free_blocks_[j]? = self.free_blocks_[j]?) := by
  rcases allocate_cases self num_bytes hwf with ⟨hnone, _⟩ | ⟨i, hlt, hi, _, hs1, hs2⟩
  · rw [hnone] at h; exact absurd h (by simp)
  · rw [hs1] at h
    rw [hs2]
    have hp : self.buffer_ + i * block_size_in_bytes_ = p := Option.some.inj h
    have hl := hi.1
    refine ⟨i, hp.symm, hlt, hi, ?_, ?_, fun j h1 h2 => ?_, fun j hj => ?_⟩
    · simp only
    · simp only [fill_n_length]
    · simp only [fill_n_getElem?]
      rw [if_pos ⟨h1, h2, by omega⟩]
    · have hnot : ¬ (i ≤ j ∧ j < i + allocate_num_blocks num_bytes
          ∧ j < self.free_blocks_.length) := by omega
      simp only [fill_n_getElem?]
      rw [if_neg hnot]

/-- C3. The code at the byte count `2 ^ 64 - 1`, where the sum of line 123 wraps and
`num_blocks` is zero: on a table of one free block `allocate` returns
`buffer + 0 * block_size`, entry 0 lies in the run of `ceil(num_bytes / block_size) = 2 ^ 61`
entries from index 0, which the success postcondition wants occupied, and entry 0 is still
free after the call. -/
theorem C3_failing_input :
    (allocate ⟨1000, [true]⟩ (size_mod - 1)).1 = some (1000 + 0 * block_size_in_bytes_)
    ∧ 0 < 0 + ceil_div (size_mod - 1) block_size_in_bytes_
    ∧ (allocate ⟨1000, [true]⟩ (size_mod - 1)).2.free_blocks_[0]? = some true := by
  decide

/-- The success postcondition with the ceiling, for every byte count whose rounding on line
123 does not wrap (`num_bytes + block_size - 1 < 2 ^ 64`): when `allocate(num_bytes)` returns the address `p`,
then `p = buffer + i * block_size` for an index `i` such that, with
`k = ceil(num_bytes / block_size)`, the entries `i .. i + k - 1` were all free before the
call and are all occupied after it, every other entry keeps its value, and the length of the
table and the buffer address are unchanged. -/
theorem success_post_without_wrap (self : bitmap_memory_resource) (num_bytes p : Nat)
    (hwf : well_formed self) (hn : num_bytes + block_size_in_bytes_ - 1 < size_mod)
    (h : (allocate self num_bytes).1 = some p) :
    ∃ i, p = self.buffer_ + i * block_size_in_bytes_
      ∧ i < self.free_blocks_.length
      ∧ run_at true self.free_blocks_ i (ceil_div num_bytes block_size_in_bytes_)
      ∧ (allocate self num_bytes).2.buffer_ = self.buffer_
      ∧ (allocate self num_bytes).2.free_blocks_.length = self.free_blocks_.length
      ∧ (∀ j, i ≤ j → j < i + ceil_div num_bytes block_size_in_bytes_ →
          (allocate self num_bytes).2.free_blocks_[j]? = some false)
      ∧ (∀ j, (j < i ∨ i + ceil_div num_bytes block_size_in_bytes_ ≤ j) →
          (allocate self num_bytes).2.free_blocks_[j]? = self.free_blocks_[j]?) := by
  have hpost := allocate_success_post self num_bytes p hwf h
  rw [allocate_num_blocks_eq_ceil num_bytes hn] at hpost
  exact hpost

/-- The success postcondition on the second step of the specification's scenario: 40 bytes
at block 2. -/
theorem success_post_without_wrap_example :
    well_formed ⟨1000, [false, false, true, true, true, true, true, true]⟩
    ∧ 40 + block_size_in_bytes_ - 1 < size_mod
    ∧ (allocate ⟨1000, [false, false, true, true, true, true, true, true]⟩ 40).1 = some 1016
    ∧ ∃ i, 1016 = 1000 + i * block_size_in_bytes_
      ∧ i < 8
      ∧ run_at true [false, false, true, true, true, true, true, true] i
          (ceil_div 40 block_size_in_bytes_)
      ∧ (allocate ⟨1000, [false, false, true, true, true, true, true, true]⟩ 40).2.buffer_
          = 1000
      ∧ (allocate ⟨1000, [false, false, true, true, true, true, true, true]⟩
          40).2.free_blocks_.length = 8
      ∧ (∀ j, i ≤ j → j < i + ceil_div 40 block_size_in_bytes_ →
          (allocate ⟨1000, [false, false, true, true, true, true, true, true]⟩
            40).2.free_blocks_[j]? = some false)
      ∧ (∀ j, (j < i ∨ i + ceil_div 40 block_size_in_bytes_ ≤ j) →
          (allocate ⟨1000, [false, false, true, true, true, true, true, true]⟩
            40).2.free_blocks_[j]?
            = [false, false, true, true, true, true, true, true][j]?) :=
  ⟨by decide, by decide, by decide,
    success_post_without_wrap ⟨1000, [false, false, true, true, true, true, true, true]⟩ 40 1016
      (by decide) (by decide) (by decide)⟩

/-! ## C4: round trip -/

theorem fill_n_undo (t : List Bool) (i k : Nat) (hr : run_at true t i k) :
    fill_n (fill_n t i k false) i k true = t := by
  apply List.ext_getElem?
  intro j
  rw [fill_n_getElem?, fill_n_length, fill_n_getElem?]
  by_cases hj : i ≤ j ∧ j < i + k ∧ j < t.length
  · rw [if_pos hj]
    have := hr.2 (j - i) (by omega)
    rw [show i + (j - i) = j by omega] at this
    exact this.symm
  · rw [if_neg hj, if_neg hj]

/-- C4. Round trip: when `allocate(n)` on a table succeeds with address `p`,
`deallocate(p, n)` on the resulting resource gives back the resource, table included, as it
was before the `allocate`. -/
theorem C4_round_trip (self : bitmap_memory_resource) (n p : Nat)
    (hwf : well_formed self) (h : (allocate self n).1 = some p) :
    deallocate (allocate self n).2 p n = some self := by
  rcases allocate_cases self n hwf with ⟨hnone, _⟩ | ⟨i, hlt, hi, _, hs1, hs2⟩
  · rw [hnone] at h; exact absurd h (by simp)
  · rw [hs1] at h
    rw [hs2]
    have hp : self.buffer_ + i * block_size_in_bytes_ = p := Option.some.inj h
    subst hp
    have hd := deallocate_in_range
      ⟨self.buffer_, fill_n self.free_blocks_ i (allocate_num_blocks n) false⟩ i n
      (by simp only [fill_n_length, deallocate_num_blocks_eq]; exact hi.1)
    simp only [deallocate_num_blocks_eq] at hd
    rw [hd, fill_n_undo _ _ _ hi]

/-- C4, on the second step of the specification's scenario: 40 bytes at block 2. -/
theorem C4_round_trip_witness :
    well_formed ⟨1000, [false, false, true, true, true, true, true, true]⟩
    ∧ (allocate ⟨1000, [false, false, true, true, true, true, true, true]⟩ 40).1 = some 1016
    ∧ deallocate (allocate ⟨1000, [false, false, true, true, true, true, true, true]⟩ 40).2
        1016 40 = some ⟨1000, [false, false, true, true, true, true, true, true]⟩ :=
  ⟨by decide, by decide,
    C4_round_trip ⟨1000, [false, false, true, true, true, true, true, true]⟩ 40 1016
      (by decide) (by decide)⟩

/-! ## C5: live allocations -/

/-- C5. The code on `allocate(2 ^ 64 - 1)` followed by `allocate(8)`, from a fresh resource
over 16 bytes: line 123 wraps the first byte count to zero blocks, so both calls return the
address `buffer + 0`, both allocations are live, and their address ranges overlap, which
non-overlap forbids. -/
theorem C5_failing_input :
    (session.fresh 1000 16).run [call.allocate (size_mod - 1), call.allocate 8]
      = some ⟨⟨1000, [false, true]⟩, [(1000, 8), (1000, size_mod - 1)]⟩
    ∧ ranges_overlap (1000, 8) (1000, size_mod - 1) := by
  refine ⟨by decide, 1000, ?_⟩
  decide

/-- Non-overlap for byte counts whose rounding on line 123 does not wrap: from a freshly
constructed resource, after any sequence of `allocate` calls with
`num_bytes + block_size - 1 < 2 ^ 64` and of `deallocate` calls that each pass the address
and byte count of a live allocation, no two live address ranges `[p, p + n)` overlap. -/
theorem no_overlap_without_wrap (buffer S : Nat) (hS : S < size_mod) (cs : List call)
    (hcs : ∀ c, c ∈ cs → c.no_wrap) (s1 : session)
    (h : (session.fresh buffer S).run cs = some s1) :
    s1.live.Pairwise (fun a b => ¬ ranges_overlap a b) :=
  live_ranges_disjoint s1 (run_inv cs _ s1 hcs (fresh_inv buffer S hS) h)

/-- Non-overlap on the specification's scenario followed by `allocate(8)` and `allocate(0)`:
three allocations are live at the end. -/
theorem no_overlap_without_wrap_example :
    64 < size_mod
    ∧ (∀ c, c ∈ [call.allocate 16, call.allocate 40, call.allocate 16,
          call.deallocate 1000 16, call.allocate 8, call.allocate 0] → c.no_wrap)
    ∧ (session.fresh 1000 64).run [call.allocate 16, call.allocate 40, call.allocate 16,
          call.deallocate 1000 16, call.allocate 8, call.allocate 0]
        = some ⟨⟨1000, [false, true, false, false, false, false, false, true]⟩,
            [(1000, 0), (1000, 8), (1016, 40)]⟩
    ∧ [(1000, 0), (1000, 8), (1016, 40)].Pairwise (fun a b => ¬ ranges_overlap a b) :=
  ⟨by decide, by decide, by decide,
    no_overlap_without_wrap 1000 64 (by decide)
      [call.allocate 16, call.allocate 40, call.allocate 16,
        call.deallocate 1000 16, call.allocate 8, call.allocate 0]
      (by decide)
      ⟨⟨1000, [false, true, false, false, false, false, false, true]⟩,
        [(1000, 0), (1000, 8), (1016, 40)]⟩
      (by decide)⟩

/-! ## C6: a fresh resource -/

theorem run_at_replicate (m k : Nat) (h : k ≤ m) : run_at true (List.replicate m true) 0 k := by
  refine ⟨by simp only [List.length_replicate]; omega, fun j hj => ?_⟩
  rw [List.getElem?_replicate, if_pos (by omega)]

/-- C6, as stated, fails: over a buffer of 12 bytes there is one block, and `allocate(12)`,
which needs two, returns `nullptr`. -/
theorem C6_counterexample :
    ¬ ∀ buffer S n : Nat, S < size_mod → n ≤ S →
        ∃ p, (allocate (construct buffer S) n).1 = some p ∧ buffer ≤ p ∧ p < buffer + S := by
  intro h
  obtain ⟨p, hp, _⟩ := h 1000 12 12 (by decide) (by decide)
  have hnone : (allocate (construct 1000 12) 12).1 = none := by decide
  rw [hnone] at hp
  exact absurd hp (by simp)

/-- C6, amended. Right after construction over a buffer of `S` bytes that holds at least one
block, `allocate(n)` succeeds for every `n` up to `block_size * floor(S / block_size)`, the
bytes of the whole blocks, and the returned address lies in `[buffer, buffer + S)`. -/
theorem C6_initial_freedom (buffer S n : Nat) (hS : S < size_mod)
    (hB : block_size_in_bytes_ ≤ S)
    (hn : n ≤ S / block_size_in_bytes_ * block_size_in_bytes_) :
    ∃ p, (allocate (construct buffer S) n).1 = some p ∧ buffer ≤ p ∧ p < buffer + S := by
  have hwf := construct_well_formed buffer S hS
  have hk : allocate_num_blocks n ≤ S / block_size_in_bytes_ := by
    rw [num_blocks_eq_mod]
    unfold block_size_in_bytes_ size_mod at *
    omega
  have h0 : run_at true (construct buffer S).free_blocks_ 0 (allocate_num_blocks n) :=
    run_at_replicate _ _ hk
  have hlen : (construct buffer S).free_blocks_.length = S / block_size_in_bytes_ := by
    simp only [construct, List.length_replicate]
  rcases allocate_cases (construct buffer S) n hwf with
    ⟨_, hno | hnil⟩ | ⟨i, _, _, hmin, h1, _⟩
  · exact absurd ⟨0, h0⟩ hno
  · rw [hnil, List.length_nil] at hlen
    unfold block_size_in_bytes_ at *
    omega
  · have hi0 : i = 0 := by
      by_contra hne
      exact hmin 0 (by omega) h0
    subst hi0
    refine ⟨_, h1, ?_, ?_⟩
    · simp only [construct]; omega
    · simp only [construct]
      unfold block_size_in_bytes_ at *
      omega

/-- C6, amended, on a buffer of 12 bytes: the one whole block serves a request of 8 bytes. -/
theorem C6_initial_freedom_witness :
    12 < size_mod ∧ block_size_in_bytes_ ≤ 12
    ∧ 8 ≤ 12 / block_size_in_bytes_ * block_size_in_bytes_
    ∧ ∃ p, (allocate (construct 1000 12) 8).1 = some p ∧ 1000 ≤ p ∧ p < 1000 + 12 :=
  ⟨by decide, by decide, by decide,
    C6_initial_freedom 1000 12 8 (by decide) (by decide) (by decide)⟩

/-! ## C7: the rounding rule -/

/-- C7. The code at the byte count `2 ^ 64 - 1`: the sum
`num_bytes + block_size_in_bytes_ - 1` of lines 123 and 149 wraps to 6 and both lines compute
zero blocks, where the ceiling of `num_bytes / block_size`, which the rounding rule asks for,
is `2 ^ 61`. -/
theorem C7_failing_input :
    size_mod - 1 < size_mod
    ∧ allocate_num_blocks (size_mod - 1) = 0
    ∧ deallocate_num_blocks (size_mod - 1) = 0
    ∧ ceil_div (size_mod - 1) block_size_in_bytes_ = 2305843009213693952 := by
  decide

/-- The rounding rule where the sum does not wrap: for every byte count with
`num_bytes + block_size - 1 < 2 ^ 64` the block count that `allocate` (line 123) and
`deallocate` (line 149) compute is `ceil(num_bytes / block_size)`; and for every byte count,
wrapped or not, the two lines compute the same count. -/
theorem rounding_without_wrap (num_bytes : Nat)
    (hn : num_bytes + block_size_in_bytes_ - 1 < size_mod) :
    allocate_num_blocks num_bytes = ceil_div num_bytes block_size_in_bytes_
    ∧ deallocate_num_blocks num_bytes = ceil_div num_bytes block_size_in_bytes_
    ∧ ∀ m, deallocate_num_blocks m = allocate_num_blocks m :=
  ⟨allocate_num_blocks_eq_ceil num_bytes hn,
    (deallocate_num_blocks_eq num_bytes).trans (allocate_num_blocks_eq_ceil num_bytes hn),
    deallocate_num_blocks_eq⟩

/-- The rounding rule at 40 bytes: five blocks. -/
theorem rounding_without_wrap_example :
    40 + block_size_in_bytes_ - 1 < size_mod
    ∧ allocate_num_blocks 40 = ceil_div 40 block_size_in_bytes_
    ∧ deallocate_num_blocks 40 = ceil_div 40 block_size_in_bytes_
    ∧ ∀ m, deallocate_num_blocks m = allocate_num_blocks m :=
  ⟨by decide, rounding_without_wrap 40 (by decide)⟩

/-! ## C8: what deallocate does to the table -/

/-- C8. Deallocate postcondition: for `p = buffer + off`, `idx = off / block_size` and
`k = ceil(num_bytes / block_size)` with `idx + k` within the table, `deallocate(p, num_bytes)`
sets the entries `idx .. idx + k - 1` to free, keeps every other entry and keeps the length. -/
theorem C8_deallocate_post (self : bitmap_memory_resource) (off num_bytes : Nat)
    (hwf : well_formed self)
    (hr : off / block_size_in_bytes_ + ceil_div num_bytes block_size_in_bytes_
      ≤ self.free_blocks_.length) :
    ∃ after, deallocate self (self.buffer_ + off) num_bytes = some after
      ∧ after.buffer_ = self.buffer_
      ∧ after.free_blocks_.length = self.free_blocks_.length
      ∧ (∀ j, off / block_size_in_bytes_ ≤ j →
          j < off / block_size_in_bytes_ + ceil_div num_bytes block_size_in_bytes_ →
          after.free_blocks_[j]? = some true)
      ∧ (∀ j, (j < off / block_size_in_bytes_
            ∨ off / block_size_in_bytes_ + ceil_div num_bytes block_size_in_bytes_ ≤ j) →
          after.free_blocks_[j]? = self.free_blocks_[j]?) := by
  have hnb : deallocate_num_blocks num_bytes = ceil_div num_bytes block_size_in_bytes_ :=
    num_blocks_of_run self num_bytes (off / block_size_in_bytes_) hwf hr
  have hd : deallocate self (self.buffer_ + off) num_bytes
      = some ⟨self.buffer_, fill_n self.free_blocks_ (off / block_size_in_bytes_)
          (ceil_div num_bytes block_size_in_bytes_) true⟩ := by
    simp only [deallocate, ptr_diff_add, hnb, hr, if_true]
  refine ⟨_, hd, ?_, ?_, fun j h1 h2 => ?_, fun j hj => ?_⟩
  · simp only
  · simp only [fill_n_length]
  · simp only [fill_n_getElem?]
    rw [if_pos ⟨h1, h2, by omega⟩]
  · have hnot : ¬ (off / block_size_in_bytes_ ≤ j
        ∧ j < off / block_size_in_bytes_ + ceil_div num_bytes block_size_in_bytes_
        ∧ j < self.free_blocks_.length) := by omega
    simp only [fill_n_getElem?]
    rw [if_neg hnot]

/-- C8, on a table of eight blocks with only block 7 free: the pointer `buffer + 19` lies in
block 2, and 12 bytes are two blocks. -/
theorem C8_deallocate_post_witness :
    well_formed ⟨1000, [false, false, false, false, false, false, false, true]⟩
    ∧ 19 / block_size_in_bytes_ + ceil_div 12 block_size_in_bytes_ ≤ 8
    ∧ ∃ after, deallocate ⟨1000, [false, false, false, false, false, false, false, true]⟩
          (1000 + 19) 12 = some after
      ∧ after.buffer_ = 1000
      ∧ after.free_blocks_.length = 8
      ∧ (∀ j, 19 / block_size_in_bytes_ ≤ j →
          j < 19 / block_size_in_bytes_ + ceil_div 12 block_size_in_bytes_ →
          after.free_blocks_[j]? = some true)
      ∧ (∀ j, (j < 19 / block_size_in_bytes_
            ∨ 19 / block_size_in_bytes_ + ceil_div 12 block_size_in_bytes_ ≤ j) →
          after.free_blocks_[j]?
            = [false, false, false, false, false, false, false, true][j]?) :=
  ⟨by decide, by decide,
    C8_deallocate_post ⟨1000, [false, false, false, false, false, false, false, true]⟩ 19 12
      (by decide) (by decide)⟩

/-! ## C9: the scenario of the specification -/

/-- The address returned by `allocate` is relative to `buffer_`, and the table it leaves
does not depend on `buffer_`. -/
theorem allocate_buffer (b : Nat) (t : List Bool) (n : Nat) :
    allocate ⟨b, t⟩ n
      = (Option.map (fun off => b + off) (allocate ⟨0, t⟩ n).1,
          ⟨b, (allocate ⟨0, t⟩ n).2.free_blocks_⟩) := by
  by_cases h : search t (constant_iterator.mk2 true 0)
      (constant_iterator.mk2 true (allocate_num_blocks n)) = t.length
  · simp only [allocate, h, if_true, Option.map_none']
  · simp only [allocate, h, if_false, Option.map_some', Nat.zero_add]

/-- C9. The scenario with block size 8 and a fresh resource over 64 bytes: `allocate(16)`
returns `buffer + 0` and occupies blocks 0 and 1; `allocate(40)` returns `buffer + 16` and
occupies blocks 2 to 6; `allocate(16)` returns `nullptr`; `deallocate(buffer + 0, 16)` frees
blocks 0 and 1; `allocate(16)` returns `buffer + 0`. Each call starts from the resource the
previous call left. -/
theorem C9_scenario (buffer : Nat) :
    block_size_in_bytes_ = 8
    ∧ construct buffer 64 = ⟨buffer, [true, true, true, true, true, true, true, true]⟩
    ∧ allocate ⟨buffer, [true, true, true, true, true, true, true, true]⟩ 16
        = (some (buffer + 0), ⟨buffer, [false, false, true, true, true, true, true, true]⟩)
    ∧ allocate ⟨buffer, [false, false, true, true, true, true, true, true]⟩ 40
        = (some (buffer + 16),
            ⟨buffer, [false, false, false, false, false, false, false, true]⟩)
    ∧ allocate ⟨buffer, [false, false, false, false, false, false, false, true]⟩ 16
        = (none, ⟨buffer, [false, false, false, false, false, false, false, true]⟩)
    ∧ deallocate ⟨buffer, [false, false, false, false, false, false, false, true]⟩
        (buffer + 0) 16
        = some ⟨buffer, [true, true, false, false, false, false, false, true]⟩
    ∧ allocate ⟨buffer, [true, true, false, false, false, false, false, true]⟩ 16
        = (some (buffer + 0),
            ⟨buffer, [false, false, false, false, false, false, false, true]⟩) := by
  have e1 : allocate ⟨0, [true, true, true, true, true, true, true, true]⟩ 16
      = (some 0, ⟨0, [false, false, true, true, true, true, true, true]⟩) := by decide
  have e2 : allocate ⟨0, [false, false, true, true, true, true, true, true]⟩ 40
      = (some 16, ⟨0, [false, false, false, false, false, false, false, true]⟩) := by decide
  have e3 : allocate ⟨0, [false, false, false, false, false, false, false, true]⟩ 16
      = (none, ⟨0, [false, false, false, false, false, false, false, true]⟩) := by decide
  have e4 : allocate ⟨0, [true, true, false, false, false, false, false, true]⟩ 16
      = (some 0, ⟨0, [false, false, false, false, false, false, false, true]⟩) := by decide
  have hk : deallocate_num_blocks 16 = 2 := by decide
  have e5 := deallocate_in_range
    ⟨buffer, [false, false, false, false, false, false, false, true]⟩ 0 16
    (by rw [hk]; simp only [List.length_cons, List.length_nil]; decide)
  rw [hk] at e5
  refine ⟨rfl, rfl, ?_, ?_, ?_, ?_, ?_⟩
  · rw [allocate_buffer, e1]; rfl
  · rw [allocate_buffer, e2]; rfl
  · rw [allocate_buffer, e3]; rfl
  · rw [show buffer + 0 = buffer + 0 * block_size_in_bytes_ from rfl, e5]; rfl
  · rw [allocate_buffer, e4]; rfl

/-! ## C10: construction -/

/-- C10. Construction: over a buffer of `S` bytes the table of the fresh resource has
exactly `floor(S / block_size)` entries and every entry is free. -/
theorem C10_construct (buffer S : Nat) :
    (construct buffer S).free_blocks_.length = S / block_size_in_bytes_
    ∧ (∀ j, j < S / block_size_in_bytes_ → (construct buffer S).free_blocks_[j]? = some true)
    ∧ ∀ x, x ∈ (construct buffer S).free_blocks_ → x = true := by
  refine ⟨?_, fun j hj => ?_, fun x hx => ?_⟩
  · simp only [construct, List.length_replicate]
  · simp only [construct, List.getElem?_replicate]
    rw [if_pos hj]
  · simp only [construct] at hx
    exact List.eq_of_mem_replicate hx

/-! ## C11: a buffer smaller than one block -/

theorem allocate_nil (b n : Nat) : allocate ⟨b, []⟩ n = (none, ⟨b, []⟩) := by
  simp only [allocate, search, search_from, List.length_nil, if_true]

/-- C11. Too-small buffer: over a buffer of `S < block_size` bytes the table has length 0 and
`allocate` returns `nullptr` for every byte count, 0 included, leaving the resource as it
is. -/
theorem C11_too_small (buffer S : Nat) (hS : S < block_size_in_bytes_) :
    (construct buffer S).free_blocks_.length = 0
    ∧ ∀ n, allocate (construct buffer S) n = (none, construct buffer S) := by
  have h0 : S / block_size_in_bytes_ = 0 := by
    unfold block_size_in_bytes_ at *; omega
  have hc : construct buffer S = ⟨buffer, []⟩ := by
    simp only [construct, h0, List.replicate_zero]
  rw [hc]
  exact ⟨rfl, fun n => allocate_nil buffer n⟩

/-- C11, over a buffer of 4 bytes. -/
theorem C11_too_small_witness :
    4 < block_size_in_bytes_
    ∧ (construct 1000 4).free_blocks_.length = 0
    ∧ ∀ n, allocate (construct 1000 4) n = (none, construct 1000 4) :=
  ⟨by decide, C11_too_small 1000 4 (by decide)⟩

/-! ## C12: zero bytes -/

/-- C12, as stated, fails on the empty table of a resource over 4 bytes: `allocate(0)` returns
`nullptr`, because the match at `begin()` is also `end()`. -/
theorem C12_counterexample :
    (construct 1000 4).free_blocks_ = [] ∧ (allocate (construct 1000 4) 0).1 = none := by
  decide

theorem search_empty_pattern (x : Bool) (rest : List Bool) :
    search (x :: rest) (constant_iterator.mk2 true 0) (constant_iterator.mk2 true 0) = 0 := by
  simp only [search, search_from, search_inner, constant_iterator.mk2, constant_iterator.ne,
    bne_self_eq_false, Bool.false_eq_true, if_false]

/-- C12, amended. Zero-byte allocation on a resource whose table is not empty: line 123
computes `num_blocks = 0`, the search matches at the very first position, and `allocate(0)`
returns `buffer + 0` and leaves the resource, the table included, unchanged; so a second
`allocate(0)` returns `buffer + 0` again and nothing is reserved. -/
theorem C12_zero_bytes (self : bitmap_memory_resource) (hne : self.free_blocks_ ≠ []) :
    allocate_num_blocks 0 = 0
    ∧ search self.free_blocks_ (constant_iterator.mk2 true 0)
        (constant_iterator.mk2 true (allocate_num_blocks 0)) = 0
    ∧ allocate self 0 = (some (self.buffer_ + 0), self)
    ∧ allocate (allocate self 0).2 0 = (some (self.buffer_ + 0), self) := by
  have hk : allocate_num_blocks 0 = 0 := by decide
  obtain ⟨b, t⟩ := self
  cases t with
  | nil => exact absurd rfl hne
  | cons x rest =>
    have hs := search_empty_pattern x rest
    have hm : size_mul 0 block_size_in_bytes_ = 0 := by decide
    have ha : allocate ⟨b, x :: rest⟩ 0 = (some (b + 0), ⟨b, x :: rest⟩) := by
      simp only [allocate, hk, hs, List.length_cons, Nat.zero_ne_add_one, if_false, hm, fill_n]
    refine ⟨hk, ?_, ha, ?_⟩
    · rw [hk]; exact hs
    · rw [ha]; exact ha

/-- C12, amended, on a table of two blocks with block 0 occupied. -/
theorem C12_zero_bytes_witness :
    ([false, true] : List Bool) ≠ []
    ∧ allocate_num_blocks 0 = 0
    ∧ search [false, true] (constant_iterator.mk2 true 0)
        (constant_iterator.mk2 true (allocate_num_blocks 0)) = 0
    ∧ allocate ⟨1000, [false, true]⟩ 0 = (some (1000 + 0), ⟨1000, [false, true]⟩)
    ∧ allocate (allocate ⟨1000, [false, true]⟩ 0).2 0
        = (some (1000 + 0), ⟨1000, [false, true]⟩) :=
  ⟨by decide, C12_zero_bytes ⟨1000, [false, true]⟩ (by decide)⟩

/-! ## C13: aligned and in bounds -/

/-- C13. The code at the byte count `2 ^ 64 - 1`, where the sum of line 123 wraps and
`num_blocks` is zero: on a table of length 1 `allocate` returns `buffer + 0 * block_size`,
and `0 + ceil(num_bytes / block_size) = 2 ^ 61` is not within the length, as the bound asks. -/
theorem C13_failing_input :
    (allocate ⟨1000, [true]⟩ (size_mod - 1)).1 = some (1000 + 0 * block_size_in_bytes_)
    ∧ ¬ (0 + ceil_div (size_mod - 1) block_size_in_bytes_ ≤ ([true] : List Bool).length) := by
  decide

/-- Alignment and bounds for every byte count, with the block count that line 123 computes:
when `allocate(num_bytes)` returns the address `p`, then `p = buffer + i * block_size` for an
index `i` with `i + num_blocks` within the length of the table, the offset `p - buffer` is a
multiple of the block size, and every index `i .. i + num_blocks - 1` that the marking step
writes is below the length. -/
theorem allocate_aligned_in_bounds (self : bitmap_memory_resource) (num_bytes p : Nat)
    (hwf : well_formed self) (h : (allocate self num_bytes).1 = some p) :
    ∃ i, p = self.buffer_ + i * block_size_in_bytes_
      ∧ i + allocate_num_blocks num_bytes ≤ self.free_blocks_.length
      ∧ (p - self.buffer_) % block_size_in_bytes_ = 0
      ∧ ∀ j, i ≤ j → j < i + allocate_num_blocks num_bytes → j < self.free_blocks_.length := by
  obtain ⟨i, hp, _, hrun, _⟩ := allocate_success_post self num_bytes p hwf h
  have hl := hrun.1
  refine ⟨i, hp, hl, ?_, fun j _ h2 => by omega⟩
  rw [hp]
  unfold block_size_in_bytes_
  omega

/-- Alignment and bounds with the ceiling, for every byte count whose rounding on line 123
does not wrap (`num_bytes + block_size - 1 < 2 ^ 64`): when `allocate(num_bytes)` returns the
address `p`, then `p = buffer + i * block_size` for an index `i` with
`i + ceil(num_bytes / block_size)` within the length of the table, the offset `p - buffer`
is a multiple of the block size, and every index `i .. i + num_blocks - 1` that the marking
step writes is below the length. -/
theorem aligned_in_bounds_without_wrap (self : bitmap_memory_resource) (num_bytes p : Nat)
    (hwf : well_formed self) (hn : num_bytes + block_size_in_bytes_ - 1 < size_mod)
    (h : (allocate self num_bytes).1 = some p) :
    ∃ i, p = self.buffer_ + i * block_size_in_bytes_
      ∧ i + ceil_div num_bytes block_size_in_bytes_ ≤ self.free_blocks_.length
      ∧ (p - self.buffer_) % block_size_in_bytes_ = 0
      ∧ ∀ j, i ≤ j → j < i + allocate_num_blocks num_bytes → j < self.free_blocks_.length := by
  obtain ⟨i, hp, _, hrun, _⟩ := allocate_success_post self num_bytes p hwf h
  have hl := hrun.1
  have hc := allocate_num_blocks_eq_ceil num_bytes hn
  refine ⟨i, hp, by omega, ?_, fun j _ h2 => by omega⟩
  rw [hp]
  unfold block_size_in_bytes_
  omega

/-- Alignment and bounds on the second step of the specification's scenario: 40 bytes at
block 2. -/
theorem aligned_in_bounds_without_wrap_example :
    well_formed ⟨1000, [false, false, true, true, true, true, true, true]⟩
    ∧ 40 + block_size_in_bytes_ - 1 < size_mod
    ∧ (allocate ⟨1000, [false, false, true, true, true, true, true, true]⟩ 40).1 = some 1016
    ∧ ∃ i, 1016 = 1000 + i * block_size_in_bytes_
      ∧ i + ceil_div 40 block_size_in_bytes_ ≤ 8
      ∧ (1016 - 1000) % block_size_in_bytes_ = 0
      ∧ ∀ j, i ≤ j → j < i + allocate_num_blocks 40 → j < 8 :=
  ⟨by decide, by decide, by decide,
    aligned_in_bounds_without_wrap ⟨1000, [false, false, true, true, true, true, true, true]⟩ 40 1016
      (by decide) (by decide) (by decide)⟩

/-! ## C14: comparison of constant iterators -/

/-- C14. Comparison is by position only: `a != b` is true exactly when the positions differ,
false exactly when they are equal, and the result is the same whatever the stored values. -/
theorem C14_ne_by_position {T : Type} (a b : constant_iterator T) :
    (a.ne b = true ↔ a.position_ ≠ b.position_)
    ∧ (a.ne b = false ↔ a.position_ = b.position_)
    ∧ ∀ v w : T, (constant_iterator.mk2 v a.position_).ne
        (constant_iterator.mk2 w b.position_) = a.ne b := by
  refine ⟨?_, ?_, fun v w => rfl⟩
  · simp only [constant_iterator.ne, bne_iff_ne, ne_eq]
  · simp only [constant_iterator.ne, bne_eq_false_iff_eq]

/-! ## C15: a range of N copies -/

theorem traverse_from {T : Type} (v : T) (N fuel p : Nat) (hN : N < size_mod) (hp : p ≤ N)
    (hf : N - p ≤ fuel) :
    constant_iterator.traverse fuel ⟨v, p⟩ ⟨v, N⟩
      = some ((List.range' p (N - p)).map (fun i => constant_iterator.mk2 v i)) := by
  induction fuel generalizing p with
  | zero =>
    have hpN : p = N := by omega
    subst hpN
    simp only [constant_iterator.traverse, constant_iterator.ne, bne_self_eq_false,
      Bool.false_eq_true, if_false, Nat.sub_self, List.range'_zero, List.map_nil]
  | succ fuel ih =>
    by_cases hpN : p = N
    · subst hpN
      simp only [constant_iterator.traverse, constant_iterator.ne, bne_self_eq_false,
        Bool.false_eq_true, if_false, Nat.sub_self, List.range'_zero, List.map_nil]
    · have hne : (p != N) = true := by simpa using hpN
      have hinc : (constant_iterator.inc ⟨v, p⟩ : constant_iterator T) = ⟨v, p + 1⟩ := by
        simp only [constant_iterator.inc]
        rw [size_add_small p 1 (by omega)]
      have hlen : N - p = (N - (p + 1)) + 1 := by omega
      simp only [constant_iterator.traverse, constant_iterator.ne, hne, if_true, hinc]
      rw [ih (p + 1) (by omega) (by omega), hlen, List.range'_succ]
      simp only [Option.map_some', List.map_cons, constant_iterator.mk2]

/-- C15. A range of `N` copies of `v`: the traversal from the begin sentinel
`constant_iterator(v)` by repeated `++` until the iterator is no longer `!=` the end sentinel
`constant_iterator(v, N)` ends, visits exactly the `N` positions `0 .. N - 1`, and `*it` and
`it[n]`, for any `n`, are `v` at each of them. -/
theorem C15_n_copies {T : Type} (v : T) (N fuel : Nat) (hN : N < size_mod)
    (hf : N ≤ fuel) :
    ∃ visited, constant_iterator.traverse fuel (constant_iterator.mk1 v)
        (constant_iterator.mk2 v N) = some visited
      ∧ visited = (List.range' 0 N).map (fun i => constant_iterator.mk2 v i)
      ∧ visited.length = N
      ∧ ∀ it, it ∈ visited → it.deref = v ∧ ∀ n, it.subscript n = v := by
  have h := traverse_from v N fuel 0 hN (Nat.zero_le N) (by omega)
  rw [Nat.sub_zero] at h
  refine ⟨_, h, rfl, ?_, fun it hit => ?_⟩
  · simp only [List.length_map, List.length_range']
  · simp only [List.mem_map] at hit
    obtain ⟨i, _, hi⟩ := hit
    rw [← hi]
    exact ⟨rfl, fun n => rfl⟩

/-- C15, for three copies of `true`, the pattern of a request of three blocks. -/
theorem C15_n_copies_witness :
    3 < size_mod ∧ 3 ≤ 5
    ∧ ∃ visited, constant_iterator.traverse 5 (constant_iterator.mk1 true)
        (constant_iterator.mk2 true 3) = some visited
      ∧ visited = (List.range' 0 3).map (fun i => constant_iterator.mk2 true i)
      ∧ visited.length = 3
      ∧ ∀ it, it ∈ visited → it.deref = true ∧ ∀ n, it.subscript n = true :=
  ⟨by decide, by decide, C15_n_copies true 3 5 (by decide) (by decide)⟩

/-! ## C16: arithmetic of constant iterators -/

/-- C16. Traversal arithmetic, for an iterator whose position is a `std::size_t` and an
offset `n` that is a `difference_type` (`-2 ^ 63 ≤ n < 2 ^ 63`): `(it + n) - it` is `n`,
`it + n` keeps the stored value, and `++` followed by `--` gives back the iterator, in the
pre and in the post form. -/
theorem C16_arithmetic {T : Type} (it : constant_iterator T) (n : Int)
    (hp : it.position_ < size_mod)
    (hlo : -9223372036854775808 ≤ n) (hhi : n < 9223372036854775808) :
    (it.plus n).diff it = n
    ∧ (it.plus n).value_ = it.value_
    ∧ it.inc.dec = it
    ∧ it.post_inc.2.post_dec.2 = it := by
  obtain ⟨v, p⟩ := it
  simp only at hp
  have hid : size_sub (size_add p 1) 1 = p := by
    unfold size_sub size_add size_mod at *
    split_ifs <;> omega
  refine ⟨?_, rfl, ?_, ?_⟩
  · simp only [constant_iterator.plus, constant_iterator.plus_eq, constant_iterator.diff]
    rw [size_sub_eq_mod _ _ (size_add_lt _ _) hp]
    unfold to_ptrdiff of_ptrdiff size_add size_mod at *
    split_ifs <;> omega
  · simp only [constant_iterator.inc, constant_iterator.dec, hid]
  · simp only [constant_iterator.post_inc, constant_iterator.post_dec, hid]

/-- C16, at position 5 with the offset `-3`. -/
theorem C16_arithmetic_witness :
    (5 : Nat) < size_mod ∧ (-9223372036854775808 : Int) ≤ -3
    ∧ (-3 : Int) < 9223372036854775808
    ∧ ((constant_iterator.mk2 true 5).plus (-3)).diff (constant_iterator.mk2 true 5) = -3
    ∧ ((constant_iterator.mk2 true 5).plus (-3)).value_ = (constant_iterator.mk2 true 5).value_
    ∧ (constant_iterator.mk2 true 5).inc.dec = constant_iterator.mk2 true 5
    ∧ (constant_iterator.mk2 true 5).post_inc.2.post_dec.2 = constant_iterator.mk2 true 5 :=
  ⟨by decide, by decide, by decide,
    C16_arithmetic (constant_iterator.mk2 true 5) (-3) (by decide) (by decide) (by decide)⟩

/-! ## C17: the search and the linear scan -/

theorem is_first_fit_unique {T : Type} (v : T) (t : List T) (k r1 r2 : Nat)
    (h1 : is_first_fit v t k r1) (h2 : is_first_fit v t k r2) : r1 = r2 := by
  by_cases hrun : ∃ i, run_at v t i k
  · obtain ⟨ha, hamin⟩ := h1.1 hrun
    obtain ⟨hb, hbmin⟩ := h2.1 hrun
    rcases Nat.lt_trichotomy r1 r2 with h | h | h
    · exact absurd ha (hbmin r1 h)
    · exact h
    · exact absurd hb (hamin r2 h)
  · rw [h1.2 hrun, h2.2 hrun]

theorem search_is_first_fit {T : Type} [DecidableEq T] (v : T) (t : List T) (k : Nat)
    (hk : k < size_mod) :
    is_first_fit v t k (search t (constant_iterator.mk2 v 0) (constant_iterator.mk2 v k)) := by
  obtain ⟨h1, h2⟩ := search_from_spec v t 0 k hk
  simp only [Nat.zero_add] at h1 h2
  refine ⟨fun hrun => ?_, fun hno => ?_⟩
  · obtain ⟨i, hi, hmin, hs⟩ := h1 hrun
    simp only [search, constant_iterator.mk2, hs]
    exact ⟨hi, hmin⟩
  · simp only [search, constant_iterator.mk2, h2 hno]

theorem run_at_leading_run (k : Nat) (t : List Bool) :
    run_at true (List.replicate k true ++ t) 0 k := by
  refine ⟨by simp only [List.length_append, List.length_replicate]; omega, fun j hj => ?_⟩
  rw [List.getElem?_append_left (by simp only [List.length_replicate]; omega),
    List.getElem?_replicate, if_pos (by omega)]

theorem run_at_append_right {T : Type} (v : T) (pre rest : List T) (i k : Nat) :
    run_at v (pre ++ rest) (pre.length + i) k ↔ run_at v rest i k := by
  unfold run_at
  simp only [List.length_append]
  constructor
  · rintro ⟨hl, h⟩
    refine ⟨by omega, fun j hj => ?_⟩
    have := h j hj
    rw [List.getElem?_append_right (by omega),
      show pre.length + i + j - pre.length = i + j by omega] at this
    exact this
  · rintro ⟨hl, h⟩
    refine ⟨by omega, fun j hj => ?_⟩
    rw [List.getElem?_append_right (by omega),
      show pre.length + i + j - pre.length = i + j by omega]
    exact h j hj

theorem no_run_across_gap (r k i : Nat) (rest : List Bool) (hr : r < k) (hi : i ≤ r)
    (h : run_at true (List.replicate r true ++ false :: rest) i k) : False := by
  have hj := h.2 (r - i) (by omega)
  rw [show i + (r - i) = r by omega,
    List.getElem?_append_right (by simp only [List.length_replicate]; omega)] at hj
  simp only [List.length_replicate, Nat.sub_self, List.getElem?_cons_zero, Option.some.injEq,
    Bool.false_eq_true] at hj

theorem first_fit_after_gap (r k res : Nat) (rest : List Bool) (hr : r < k)
    (h : is_first_fit true rest k res) :
    is_first_fit true (List.replicate r true ++ false :: rest) k (r + 1 + res) := by
  have hsplit : List.replicate r true ++ false :: rest
      = (List.replicate r true ++ [false]) ++ rest := by
    simp only [List.append_assoc, List.singleton_append]
  have hlen : (List.replicate r true ++ [false]).length = r + 1 := by
    simp only [List.length_append, List.length_replicate, List.length_singleton]
  have hshift : ∀ i, run_at true (List.replicate r true ++ false :: rest) (r + 1 + i) k
      ↔ run_at true rest i k := by
    intro i
    rw [hsplit, ← hlen]
    exact run_at_append_right true _ rest i k
  refine ⟨fun ⟨i, hi⟩ => ?_, fun hno => ?_⟩
  · have hge : r + 1 ≤ i := by
      by_contra hlt
      exact no_run_across_gap r k i rest hr (by omega) hi
    have hi2 : run_at true rest (i - (r + 1)) k := by
      rw [← hshift, show r + 1 + (i - (r + 1)) = i by omega]
      exact hi
    obtain ⟨hres, hmin⟩ := h.1 ⟨_, hi2⟩
    refine ⟨(hshift res).2 hres, fun j hj hrun => ?_⟩
    have hgej : r + 1 ≤ j := by
      by_contra hlt
      exact no_run_across_gap r k j rest hr (by omega) hrun
    have hrun2 : run_at true rest (j - (r + 1)) k := by
      rw [← hshift, show r + 1 + (j - (r + 1)) = j by omega]
      exact hrun
    exact hmin (j - (r + 1)) (by omega) hrun2
  · have hno2 : ¬ ∃ i, run_at true rest i k :=
      fun ⟨i, hi⟩ => hno ⟨r + 1 + i, (hshift i).2 hi⟩
    rw [h.2 hno2]
    simp only [List.length_append, List.length_replicate, List.length_cons]
    omega

/-- The linear scan in the middle of the table: with a run of `r` free entries just before
index `idx`, it answers as the first fit in those `r` entries followed by the rest. -/
theorem linear_scan_spec (k : Nat) (t : List Bool) (idx r : Nat) (hr : r ≤ k)
    (hi : r ≤ idx) :
    ∃ res, is_first_fit true (List.replicate r true ++ t) k res
      ∧ linear_scan k t idx r = idx - r + res := by
  induction t generalizing idx r with
  | nil =>
    by_cases hrk : r = k
    · subst hrk
      refine ⟨0, ⟨fun _ => ⟨run_at_leading_run r [], fun j hj => absurd hj (Nat.not_lt_zero j)⟩,
        fun hno => absurd ⟨0, run_at_leading_run r []⟩ hno⟩, ?_⟩
      simp only [linear_scan, if_true, Nat.add_zero]
    · refine ⟨r, ⟨fun ⟨i, hl, _⟩ => ?_, fun _ => ?_⟩, ?_⟩
      · simp only [List.append_nil, List.length_replicate] at hl
        omega
      · simp only [List.append_nil, List.length_replicate]
      · simp only [linear_scan, hrk, if_false]
        omega
  | cons b rest ih =>
    by_cases hrk : r = k
    · subst hrk
      refine ⟨0, ⟨fun _ => ⟨run_at_leading_run r _, fun j hj => absurd hj (Nat.not_lt_zero j)⟩,
        fun hno => absurd ⟨0, run_at_leading_run r _⟩ hno⟩, ?_⟩
      simp only [linear_scan, if_true, Nat.add_zero]
    · cases b with
      | true =>
        obtain ⟨res, hres, hs⟩ := ih (idx + 1) (r + 1) (by omega) (by omega)
        refine ⟨res, ?_, ?_⟩
        · rw [List.replicate_succ', List.append_assoc, List.singleton_append] at hres
          exact hres
        · simp only [linear_scan, hrk, if_false, if_true, hs]
          omega
      | false =>
        obtain ⟨res, hres, hs⟩ := ih (idx + 1) 0 (Nat.zero_le k) (Nat.zero_le _)
        rw [List.replicate_zero, List.nil_append] at hres
        refine ⟨r + 1 + res, first_fit_after_gap r k res rest (by omega) hres, ?_⟩
        simp only [linear_scan, hrk, if_false, Bool.false_eq_true, hs]
        omega

/-- C17. Search refinement: for every table and every block count `k` (a `std::size_t`),
`std::search` of the table for the pattern delimited by `constant_iterator(true, 0)` and
`constant_iterator(true, k)` returns the index that the linear scan tracking the current run
length returns, the index past the last entry standing for not found in both. -/
theorem C17_search_refines_scan (t : List Bool) (k : Nat) (hk : k < size_mod) :
    search t (constant_iterator.mk2 true 0) (constant_iterator.mk2 true k)
      = linear_scan k t 0 0 := by
  obtain ⟨res, hres, hs⟩ := linear_scan_spec k t 0 0 (Nat.zero_le k) (Nat.le_refl 0)
  rw [List.replicate_zero, List.nil_append] at hres
  rw [hs, Nat.sub_zero, Nat.zero_add]
  exact is_first_fit_unique true t k _ _ (search_is_first_fit true t k hk) hres

/-- C17, on the table of the specification's first-fit example with a run of three. -/
theorem C17_search_refines_scan_witness :
    3 < size_mod
    ∧ search [true, true, false, false, true, true, true, false]
        (constant_iterator.mk2 true 0) (constant_iterator.mk2 true 3)
      = linear_scan 3 [true, true, false, false, true, true, true, false] 0 0 :=
  ⟨by decide,
    C17_search_refines_scan [true, true, false, false, true, true, true, false] 3 (by decide)⟩

/-! ## C18: reuse after free -/

theorem allocate_deallocate_restores (self : bitmap_memory_resource) (n p : Nat)
    (hwf : well_formed self) (h : (allocate self n).1 = some p) :
    deallocate (allocate self n).2 p n = some self := by
  rcases allocate_cases self n hwf with ⟨hnone, _⟩ | ⟨i, _, hi, _, hs1, hs2⟩
  · rw [hnone] at h; exact absurd h (by simp)
  · rw [hs1] at h
    rw [hs2]
    have hp : self.buffer_ + i * block_size_in_bytes_ = p := Option.some.inj h
    subst hp
    have hd := deallocate_in_range
      ⟨self.buffer_, fill_n self.free_blocks_ i (allocate_num_blocks n) false⟩ i n
      (by simp only [fill_n_length, deallocate_num_blocks_eq]; exact hi.1)
    simp only [deallocate_num_blocks_eq] at hd
    rw [hd, fill_n_undo _ _ _ hi]

/-- C18. Reuse after free: when `allocate(n)` succeeds with address `p` and is followed at
once by `deallocate(p, n)`, the `deallocate` is defined and a second `allocate(n)` succeeds
and returns the same address `p`. -/
theorem C18_reuse_after_free (self : bitmap_memory_resource) (n p : Nat)
    (hwf : well_formed self) (h : (allocate self n).1 = some p) :
    ∃ s1, deallocate (allocate self n).2 p n = some s1 ∧ (allocate s1 n).1 = some p :=
  ⟨self, allocate_deallocate_restores self n p hwf h, h⟩

/-- C18, on the table of the specification's first-fit example: 24 bytes at block 4. -/
theorem C18_reuse_after_free_witness :
    well_formed ⟨1000, [true, true, false, false, true, true, true, false]⟩
    ∧ (allocate ⟨1000, [true, true, false, false, true, true, true, false]⟩ 24).1
        = some 1032
    ∧ ∃ s1, deallocate
          (allocate ⟨1000, [true, true, false, false, true, true, true, false]⟩ 24).2 1032 24
          = some s1
        ∧ (allocate s1 24).1 = some 1032 :=
  ⟨by decide, by decide,
    C18_reuse_after_free ⟨1000, [true, true, false, false, true, true, true, false]⟩ 24 1032
      (by decide) (by decide)⟩

/-! ## C19: failure is monotone -/

theorem allocate_none_of_found_end (self : bitmap_memory_resource) (n : Nat)
    (h : search self.free_blocks_ (constant_iterator.mk2 true 0)
      (constant_iterator.mk2 true (allocate_num_blocks n)) = self.free_blocks_.length) :
    allocate self n = (none, self) := by
  simp only [allocate, h, if_true]

theorem found_end_of_allocate_none (self : bitmap_memory_resource) (n : Nat)
    (h : (allocate self n).1 = none) :
    search self.free_blocks_ (constant_iterator.mk2 true 0)
      (constant_iterator.mk2 true (allocate_num_blocks n)) = self.free_blocks_.length := by
  by_contra hne
  simp only [allocate, hne, if_false] at h
  exact absurd h (by simp)

theorem run_at_shorter {T : Type} (v : T) (t : List T) (i k1 k2 : Nat) (hk : k1 ≤ k2)
    (h : run_at v t i k2) : run_at v t i k1 :=
  ⟨by have := h.1; omega, fun j hj => h.2 j (by omega)⟩

theorem allocate_num_blocks_mono (n m : Nat) (hnm : n ≤ m)
    (hm : m + block_size_in_bytes_ - 1 < size_mod) :
    allocate_num_blocks n ≤ allocate_num_blocks m := by
  rw [num_blocks_eq_mod, num_blocks_eq_mod]
  unfold block_size_in_bytes_ size_mod at *
  omega

/-- C19. Failure is monotone in the request size: for `n ≤ m` with `m + block_size - 1` not
wrapping, when `allocate(n)` returns `nullptr` on a table, `allocate(m)` on the same table
returns `nullptr` as well, and leaves the resource as it is. -/
theorem C19_failure_monotone (self : bitmap_memory_resource) (n m : Nat) (hnm : n ≤ m)
    (hm : m + block_size_in_bytes_ - 1 < size_mod) (h : (allocate self n).1 = none) :
    allocate self m = (none, self) := by
  apply allocate_none_of_found_end
  have hn := found_end_of_allocate_none self n h
  have hfn := search_is_first_fit true self.free_blocks_ (allocate_num_blocks n)
    (allocate_num_blocks_lt n)
  have hfm := search_is_first_fit true self.free_blocks_ (allocate_num_blocks m)
    (allocate_num_blocks_lt m)
  rw [hn] at hfn
  by_cases hrun : ∃ i, run_at true self.free_blocks_ i (allocate_num_blocks m)
  · obtain ⟨i, hi⟩ := hrun
    have hi2 := run_at_shorter true _ i _ _ (allocate_num_blocks_mono n m hnm hm) hi
    obtain ⟨hend, hmin⟩ := hfn.1 ⟨i, hi2⟩
    have hk0 : allocate_num_blocks n = 0 := by have := hend.1; omega
    have hlen : self.free_blocks_.length = 0 := by
      by_contra hpos
      refine hmin 0 (by omega) ?_
      rw [hk0]
      exact run_at_nil_pattern true _
    have hfound := (hfm.1 ⟨i, hi⟩).1.1
    omega
  · exact hfm.2 hrun

/-- C19, on the third step of the specification's scenario: 16 bytes fail, so do 40. -/
theorem C19_failure_monotone_witness :
    16 ≤ 40 ∧ 40 + block_size_in_bytes_ - 1 < size_mod
    ∧ (allocate ⟨1000, [false, false, false, false, false, false, false, true]⟩ 16).1 = none
    ∧ allocate ⟨1000, [false, false, false, false, false, false, false, true]⟩ 40
        = (none, ⟨1000, [false, false, false, false, false, false, false, true]⟩) :=
  ⟨by decide, by decide, by decide,
    C19_failure_monotone ⟨1000, [false, false, false, false, false, false, false, true]⟩
      16 40 (by decide) (by decide) (by decide)⟩

/-! ## C20: deallocate twice, deallocate free blocks -/

theorem fill_n_idem {T : Type} (t : List T) (i k : Nat) (x : T) :
    fill_n (fill_n t i k x) i k x = fill_n t i k x := by
  apply List.ext_getElem?
  intro j
  rw [fill_n_getElem?, fill_n_length, fill_n_getElem?]
  split_ifs <;> rfl

theorem fill_n_noop {T : Type} (v : T) (t : List T) (i k : Nat) (hr : run_at v t i k) :
    fill_n t i k v = t := by
  apply List.ext_getElem?
  intro j
  rw [fill_n_getElem?]
  by_cases hj : i ≤ j ∧ j < i + k ∧ j < t.length
  · rw [if_pos hj]
    have := hr.2 (j - i) (by omega)
    rw [show i + (j - i) = j by omega] at this
    exact this.symm
  · rw [if_neg hj]

/-- C20. For every table, pointer and byte count whose block range `idx .. idx + k - 1`, with
`idx` and `k` as `deallocate` computes them, lies within the table: `deallocate` is defined,
applying it a second time gives the same resource as applying it once, and when the entries
of the range are all free already it leaves the resource unchanged. -/
theorem C20_deallocate_idempotent (self : bitmap_memory_resource) (ptr num_bytes : Nat)
    (hr : ptr_diff ptr self.buffer_ / block_size_in_bytes_ + deallocate_num_blocks num_bytes
      ≤ self.free_blocks_.length) :
    ∃ s1, deallocate self ptr num_bytes = some s1
      ∧ deallocate s1 ptr num_bytes = some s1
      ∧ (run_at true self.free_blocks_ (ptr_diff ptr self.buffer_ / block_size_in_bytes_)
          (deallocate_num_blocks num_bytes) → s1 = self) := by
  have h1 : deallocate self ptr num_bytes
      = some ⟨self.buffer_, fill_n self.free_blocks_
          (ptr_diff ptr self.buffer_ / block_size_in_bytes_)
          (deallocate_num_blocks num_bytes) true⟩ := by
    simp only [deallocate, hr, if_true]
  refine ⟨_, h1, ?_, fun hrun => ?_⟩
  · simp only [deallocate, fill_n_length, hr, if_true, fill_n_idem]
  · rw [fill_n_noop true _ _ _ hrun]

/-- C20, on a table of eight blocks with blocks 0 and 1 occupied: the pointer `buffer + 8`
and 24 bytes cover blocks 1 to 3. -/
theorem C20_deallocate_idempotent_witness :
    ptr_diff 1008 1000 / block_size_in_bytes_ + deallocate_num_blocks 24 ≤ 8
    ∧ ∃ s1, deallocate ⟨1000, [false, false, true, true, true, true, true, true]⟩ 1008 24
          = some s1
      ∧ deallocate s1 1008 24 = some s1
      ∧ (run_at true [false, false, true, true, true, true, true, true]
            (ptr_diff 1008 1000 / block_size_in_bytes_) (deallocate_num_blocks 24)
          → s1 = ⟨1000, [false, false, true, true, true, true, true, true]⟩) :=
  ⟨by decide,
    C20_deallocate_idempotent ⟨1000, [false, false, true, true, true, true, true, true]⟩
      1008 24 (by decide)⟩

/-! ## The wrap-around of lines 123 and 149 -/

/-- The top seven byte counts: the sum of lines 123 and 149 wraps, both lines compute zero
blocks, and the ceiling is `2 ^ 61`. -/
theorem wrapped_num_blocks (n : Nat) (hlo : size_mod - block_size_in_bytes_ < n)
    (hhi : n < size_mod) :
    allocate_num_blocks n = 0 ∧ deallocate_num_blocks n = 0
      ∧ ceil_div n block_size_in_bytes_ = 2305843009213693952 := by
  rw [deallocate_num_blocks_eq, num_blocks_eq_mod]
  unfold ceil_div block_size_in_bytes_ size_mod at *
  refine ⟨by omega, by omega, ?_⟩
  split_ifs <;> omega

theorem allocate_zero_blocks (self : bitmap_memory_resource) (n : Nat)
    (hk : allocate_num_blocks n = 0) (hne : self.free_blocks_ ≠ []) :
    allocate self n = (some (self.buffer_ + 0), self) := by
  obtain ⟨b, t⟩ := self
  cases t with
  | nil => exact absurd rfl hne
  | cons x rest =>
    have hs := search_empty_pattern x rest
    have hm : size_mul 0 block_size_in_bytes_ = 0 := by decide
    simp only [allocate, hk, hs, List.length_cons, Nat.zero_ne_add_one, if_false, hm, fill_n]

/-- Every one of the top seven byte counts is served on every table that is not empty, free
entries or not: `allocate` returns `buffer + 0` and reserves nothing. -/
theorem allocate_wrapped (self : bitmap_memory_resource) (n : Nat)
    (hlo : size_mod - block_size_in_bytes_ < n) (hhi : n < size_mod)
    (hne : self.free_blocks_ ≠ []) :
    allocate self n = (some (self.buffer_ + 0), self) :=
  allocate_zero_blocks self n (wrapped_num_blocks n hlo hhi).1 hne

/-- A failing `allocate` leaves the resource as it is, for every byte count. -/
theorem allocate_none_unchanged (self : bitmap_memory_resource) (n : Nat)
    (h : (allocate self n).1 = none) : allocate self n = (none, self) :=
  allocate_none_of_found_end self n (found_end_of_allocate_none self n h)

end BitmapAllocator
